import Mathlib

/-!
# Verification of the TOTG temporal-graph core

A shallow embedding, in Lean 4, of the core of the `mcp_totg` repository:

* `totg_core_fixed.py` — `TemporalGraph` with its fuelled BFS navigation
  (`get_forward_nodes`, `get_backward_nodes`, `has_path`, `get_shortest_path`),
* `totg_attention_fixed.py` — `SemanticSimilarity` (TF-IDF and cosine
  similarity) and the attention-head window selection of
  `BidirectionalAttention.compute_forward_attention`,
* `totg_markovian.py` — the `TemporalCarryover` state and
  `MarkovianTOTG._extract_carryover` / the `analyze_long_chain` state loop,
  and `_identify_causal_relationships`.

Modelling conventions:

* Python `datetime` timestamps are modelled as `Int` (a point on a linear
  time axis; the claims under study use day granularity, and the code only
  ever compares timestamps and adds `timedelta(days=w)`, which is `+ w`
  here).
* Python `dict`s are association lists in insertion order with
  replace-on-rewrite semantics (`dictInsert`), matching CPython dicts.
* Python floats are modelled as `ℚ` where only ordering and field
  arithmetic matter, and as `ℝ` where `math.log` / `math.sqrt` appear.
* The `while queue:` loops are modelled with explicit fuel, returning
  `none` when the fuel runs out; termination of the Python loop is the
  theorem that a concrete fuel (`graphFuel`, two more than the number of
  edges) always suffices.
* Python `set` iteration order is unspecified; we keep visited sets as
  lists in visitation order.  The only place the order could surface is
  `get_forward_nodes` / `get_backward_nodes`, which immediately sort by
  timestamp, so any fixed order is a faithful refinement whenever
  timestamps are distinct (they are, in all claims under study).
-/

namespace Totg

/-! ## Generic helpers: Python dicts, list slices, string order -/

/-- CPython dict assignment `m[k] = v`: replaces in place if the key exists
(keeping its position), otherwise appends.  Keys are unique in every dict
these operations build, so replacing the first binding is replacing the
binding. -/
def dictInsert {α : Type} (m : List (String × α)) (k : String) (v : α) :
    List (String × α) :=
  match m with
  | [] => [(k, v)]
  | p :: ps => if p.1 == k then (k, v) :: ps else p :: dictInsert ps k v

/-- Python dict lookup `m.get(k)` (first binding wins; `dictInsert` keeps keys
unique so there is at most one). -/
def dictFind? {α : Type} (m : List (String × α)) (k : String) : Option α :=
  (m.find? (fun p => p.1 == k)).map (fun p => p.2)

/-- Python slice `l[:n]` for a nonnegative `n`. -/
def pyTake {α : Type} (n : Nat) (l : List α) : List α := l.take n

/-- Python slice `l[-n:]` for a nonnegative `n`: the last `n` elements, except
that `l[-0:]` is the whole list. -/
def pyTakeLast {α : Type} (n : Nat) (l : List α) : List α :=
  if n = 0 then l else l.drop (l.length - n)

/-- Deduplication keeping the first occurrence of every element, in order:
the iteration order of `collections.Counter` keys / first-seen order of a
Python `set` built left to right. -/
def firstDedup : List String → List String
  | [] => []
  | x :: xs => x :: (firstDedup xs).filter (fun y => y != x)

/-- Lexicographic `≤` on strings as lists of code points: CPython string
comparison. -/
def strLeB : List Char → List Char → Bool
  | [], _ => true
  | _ :: _, [] => false
  | a :: as, b :: bs =>
    if a.toNat < b.toNat then true
    else if a.toNat == b.toNat then strLeB as bs
    else false

/-- CPython tuple comparison `(t1, s1) <= (t2, s2)` for
`(timestamp, node_id)` pairs. -/
def tupLe (a b : Int × String) : Bool :=
  if a.1 < b.1 then true
  else if a.1 = b.1 then strLeB a.2.toList b.2.toList
  else false

/-- Model of `bisect.insort` into a sorted list: insert after all elements `≤` the new
one. -/
def insortR (x : Int × String) : List (Int × String) → List (Int × String)
  | [] => [x]
  | y :: ys => if tupLe y x then y :: insortR x ys else x :: y :: ys

/-! ## The temporal graph (`totg_core_fixed.py`) -/

/-- Model of `NodeType` (`totg_core_fixed.py`). -/
inductive NodeType
  | content
  | branchPoint
  | mergePoint
  | memoryCompressed
deriving DecidableEq, Repr

/-- Model of `TemporalRelation` (`totg_core_fixed.py`). -/
inductive TemporalRelation
  | sequential
  | causal
  | concurrent
  | branch
  | merge
deriving DecidableEq, Repr

/-- Model of `TemporalNode` (`totg_core_fixed.py`).  The open `metadata` bag and the
derived `temporal_index` / `layer_id` fields play no role in any claim under
study and are omitted. -/
structure TemporalNode where
  id : String
  timestamp : Int
  nodeType : NodeType := NodeType.content
  content : String := ""
deriving DecidableEq, Repr

/-- Model of `TemporalEdge` (`totg_core_fixed.py`); `weight` is stored but never read
by any traversal, `metadata` is an open bag that no claim reads. -/
structure TemporalEdge where
  fromNode : String
  toNode : String
  relation : TemporalRelation
  weight : ℚ := 1
deriving DecidableEq, Repr

/-- Model of `TemporalGraph` storage.  `nodes` is the `id → node` dict, `edgeList` the
edges in global insertion order (the Python `edges` / `reverse_edges` adjacency
dicts append each edge to the per-key list, so both are recovered by filtering
`edgeList` on the key, in order).  `timestampIndex` is the `bisect`-sorted
`(timestamp, id)` index. -/
structure TemporalGraph where
  nodes : List (String × TemporalNode) := []
  edgeList : List TemporalEdge := []
  timestampIndex : List (Int × String) := []
deriving Repr

/-- Model of `self.nodes.get(node_id)`. -/
def lookupNode (g : TemporalGraph) (id : String) : Option TemporalNode :=
  dictFind? g.nodes id

/-- Model of `self.edges[node_id]`: outgoing edges of a node, in insertion order. -/
def edgesFrom (g : TemporalGraph) (id : String) : List TemporalEdge :=
  g.edgeList.filter (fun e => e.fromNode == id)

/-- Model of `self.reverse_edges[node_id]`: incoming edges of a node. -/
def edgesTo (g : TemporalGraph) (id : String) : List TemporalEdge :=
  g.edgeList.filter (fun e => e.toNode == id)

/-- Model of `TemporalGraph.add_node`.  The Python body (dict assignment,
`bisect.insort`, list append) cannot raise, so the `except` branch returning
`False` is dead and the result flag is always `True`. -/
def add_node (g : TemporalGraph) (n : TemporalNode) : Bool × TemporalGraph :=
  (true,
    { g with
      nodes := dictInsert g.nodes n.id n
      timestampIndex := insortR (n.timestamp, n.id) g.timestampIndex })

/-- Model of `TemporalGraph.add_edge`: fails iff an endpoint is missing; the
temporal-order check for sequential/causal edges only prints a warning and
never changes the result or the stored state. -/
def add_edge (g : TemporalGraph) (e : TemporalEdge) : Bool × TemporalGraph :=
  match lookupNode g e.fromNode, lookupNode g e.toNode with
  | some _, some _ => (true, { g with edgeList := g.edgeList ++ [e] })
  | _, _ => (false, g)

/-- Convenience: fold `add_node` over a list (demo graphs). -/
def addNodes (g : TemporalGraph) (ns : List TemporalNode) : TemporalGraph :=
  ns.foldl (fun acc n => (add_node acc n).2) g

/-- Convenience: fold `add_edge` over a list (demo graphs). -/
def addEdges (g : TemporalGraph) (es : List TemporalEdge) : TemporalGraph :=
  es.foldl (fun acc e => (add_edge acc e).2) g

/-- Model of `chr(255) * 100`, the upper sentinel id used by
`get_nodes_in_timerange`. -/
def sentinelId : String := String.mk (List.replicate 100 (Char.ofNat 255))

/-- Model of `TemporalGraph.get_nodes_in_timerange`: the `bisect_left`/`bisect_right`
slice of the sorted index between `(start_time, "")` and
`(end_time, chr(255)*100)`.  On a sorted index (which `insortR` maintains)
that slice is exactly the subsequence of entries between the two sentinel
tuples in CPython tuple order. -/
def get_nodes_in_timerange (g : TemporalGraph) (startTime endTime : Int) :
    List String :=
  (g.timestampIndex.filter
    (fun e => tupLe (startTime, "") e && tupLe e (endTime, sentinelId))).map
    (fun e => e.2)

/-! ## BFS navigation (`totg_core_fixed.py`, lines 290–431)

`_bfs_forward` / `_bfs_backward` share one loop shape, parameterised by the
adjacency function and the expansion (time-window) test; `has_path` and
`get_shortest_path` share a second shape with an early return on the target.
All four `while queue:` loops carry explicit fuel. -/

/-- Stable insertion into a sorted list: the new element goes after every
element `y` with `le y x`. -/
def stInsert {α : Type} (le : α → α → Bool) (x : α) : List α → List α
  | [] => [x]
  | y :: ys => if le y x then y :: stInsert le x ys else x :: y :: ys

/-- Stable sort by a total boolean preorder, inserting left to right.
Python `list.sort(key=…)` is a stable sort, and a stable sort's output is
uniquely determined by the key order and the original positions, so this
models it exactly. -/
def stableSort {α : Type} (le : α → α → Bool) (l : List α) : List α :=
  l.foldl (fun acc x => stInsert le x acc) []

/-- Adjacency out of a keyed edge list: for `_bfs_forward` the key is
`from_node` and the neighbour `to_node`; for `_bfs_backward` the key is
`to_node` and the neighbour `from_node`. -/
def mkAdj (edges : List TemporalEdge) (key nbr : TemporalEdge → String) :
    String → List String :=
  fun id => (edges.filter (fun e => key e == id)).map nbr

/-- Forward adjacency `self.edges.get(current_id, [])`, projected to ids. -/
def forwardAdj (g : TemporalGraph) : String → List String :=
  mkAdj g.edgeList (fun e => e.fromNode) (fun e => e.toNode)

/-- Backward adjacency `self.reverse_edges.get(current_id, [])`, projected to
ids. -/
def backwardAdj (g : TemporalGraph) : String → List String :=
  mkAdj g.edgeList (fun e => e.toNode) (fun e => e.fromNode)

/-- The expansion test of `_bfs_forward`: a visited node is expanded unless
its timestamp lies strictly beyond `end_time` (a node id absent from the node
map skips the check and is expanded). -/
def forwardExpandOk (g : TemporalGraph) (endTime : Int) (id : String) : Bool :=
  match lookupNode g id with
  | some n => n.timestamp ≤ endTime
  | none => true

/-- The expansion test of `_bfs_backward`: expand unless strictly before
`start_time`. -/
def backwardExpandOk (g : TemporalGraph) (startTime : Int) (id : String) :
    Bool :=
  match lookupNode g id with
  | some n => startTime ≤ n.timestamp
  | none => true

/-- The `while queue:` loop of `_bfs_forward` / `_bfs_backward`.  Entries are
`(node_id, hop_count)`; a popped entry already visited or with
`hops > max_hops` is discarded; otherwise the node is visited and, if the
expansion test allows, its not-yet-visited neighbours are appended with
`hops + 1`.  Returns the visited set (in visitation order), or `none` if the
fuel runs out. -/
def bfsAux (adj : String → List String) (expandOk : String → Bool)
    (maxHops : Nat) :
    Nat → List (String × Nat) → List String → Option (List String)
  | 0, [], visited => some visited
  | _ + 1, [], visited => some visited
  | 0, _ :: _, _ => none
  | fuel + 1, (cur, hops) :: rest, visited =>
    if visited.contains cur || maxHops < hops then
      bfsAux adj expandOk maxHops fuel rest visited
    else
      let visited' := visited ++ [cur]
      if expandOk cur then
        bfsAux adj expandOk maxHops fuel
          (rest ++ ((adj cur).filter (fun w => !visited'.contains w)).map
            (fun w => (w, hops + 1)))
          visited'
      else
        bfsAux adj expandOk maxHops fuel rest visited'

/-- Fuel that always suffices for the worklist loops (proved below): the loop
pops one entry per iteration, the initial queue has one entry, and every
enqueue consumes one edge out of a freshly visited key, so the number of
iterations is at most `1 + |edges|`. -/
def graphFuel (g : TemporalGraph) : Nat := g.edgeList.length + 2

/-- Model of `TemporalGraph._bfs_forward`. -/
def bfsForward (g : TemporalGraph) (startNode : String) (maxHops : Nat)
    (endTime : Int) : Option (List String) :=
  bfsAux (forwardAdj g) (forwardExpandOk g endTime) maxHops (graphFuel g)
    [(startNode, 0)] []

/-- Model of `TemporalGraph._bfs_backward`. -/
def bfsBackward (g : TemporalGraph) (targetNode : String) (maxHops : Nat)
    (startTime : Int) : Option (List String) :=
  bfsAux (backwardAdj g) (backwardExpandOk g startTime) maxHops (graphFuel g)
    [(targetNode, 0)] []

/-- Timestamp of a node id, used as the sort key
`lambda nid: self.nodes[nid].timestamp` (every id sorted by
`get_forward_nodes` / `get_backward_nodes` is in the node map). -/
def tsOf (g : TemporalGraph) (id : String) : Int :=
  match lookupNode g id with
  | some n => n.timestamp
  | none => 0

/-- The candidate list of `get_forward_nodes` before sorting and truncation:
the BFS-visited set filtered to nodes strictly after the source and at most
`time_window_days` after it, the source itself excluded.  (On a graph whose
edges all join existing nodes — the only graphs `add_edge` builds — every
visited id is in the node map, so keeping only ids that resolve matches the
Python `self.nodes[reached_id]` lookup.) -/
def forwardCandidates (g : TemporalGraph) (nodeId : String)
    (timeWindowDays : Int) (maxHops : Nat) : Option (List String) :=
  match lookupNode g nodeId with
  | none => some []
  | some src =>
    let endTime := src.timestamp + timeWindowDays
    (bfsForward g nodeId maxHops endTime).map (fun reachable =>
      reachable.filter (fun rid =>
        rid != nodeId &&
          (match lookupNode g rid with
           | some rn =>
             src.timestamp < rn.timestamp && rn.timestamp ≤ endTime
           | none => false)))

/-- Model of `TemporalGraph.get_forward_nodes`: empty for an unknown id; otherwise the
candidates sorted ascending by timestamp (a stable sort, as `list.sort`) and
truncated to `max_results`. -/
def get_forward_nodes (g : TemporalGraph) (nodeId : String)
    (timeWindowDays : Int := 30) (maxHops : Nat := 5)
    (maxResults : Nat := 50) : Option (List String) :=
  (forwardCandidates g nodeId timeWindowDays maxHops).map (fun future =>
    (stableSort (fun a b => tsOf g a ≤ tsOf g b) future).take maxResults)

/-- The candidate list of `get_backward_nodes` before sorting and truncation:
nodes at least `time_window_days` before the target and strictly before it. -/
def backwardCandidates (g : TemporalGraph) (nodeId : String)
    (timeWindowDays : Int) (maxHops : Nat) : Option (List String) :=
  match lookupNode g nodeId with
  | none => some []
  | some tgt =>
    let startTime := tgt.timestamp - timeWindowDays
    (bfsBackward g nodeId maxHops startTime).map (fun reachable =>
      reachable.filter (fun rid =>
        rid != nodeId &&
          (match lookupNode g rid with
           | some rn =>
             startTime ≤ rn.timestamp && rn.timestamp < tgt.timestamp
           | none => false)))

/-- Model of `TemporalGraph.get_backward_nodes`: candidates sorted descending by
timestamp (`sort(key=…, reverse=True)`, stable) and truncated. -/
def get_backward_nodes (g : TemporalGraph) (nodeId : String)
    (timeWindowDays : Int := 30) (maxHops : Nat := 5)
    (maxResults : Nat := 50) : Option (List String) :=
  (backwardCandidates g nodeId timeWindowDays maxHops).map (fun past =>
    (stableSort (fun a b => tsOf g b ≤ tsOf g a) past).take maxResults)

/-- The `while queue:` loop shared by `has_path` and `get_shortest_path`:
entries `ε` carry an id and a hop count (and, for `get_shortest_path`, the
path so far); the target test happens before the visited/hop check, matching
the Python order. -/
def searchAux {ε ρ : Type} (adj : String → List String) (toNode : String)
    (maxHops : Nat) (eid : ε → String) (ehops : ε → Nat)
    (echild : ε → String → ε) (found : ε → ρ) (notFound : ρ) :
    Nat → List ε → List String → Option ρ
  | 0, [], _ => some notFound
  | _ + 1, [], _ => some notFound
  | 0, _ :: _, _ => none
  | fuel + 1, e :: rest, visited =>
    if eid e == toNode then some (found e)
    else if visited.contains (eid e) || maxHops < ehops e then
      searchAux adj toNode maxHops eid ehops echild found notFound fuel rest
        visited
    else
      let visited' := visited ++ [eid e]
      searchAux adj toNode maxHops eid ehops echild found notFound fuel
        (rest ++ ((adj (eid e)).filter (fun w => !visited'.contains w)).map
          (echild e))
        visited'

/-- Model of `TemporalGraph.has_path`. -/
def has_path (g : TemporalGraph) (fromNode toNode : String)
    (maxHops : Nat := 10) : Option Bool :=
  if (lookupNode g fromNode).isNone || (lookupNode g toNode).isNone then
    some false
  else if fromNode == toNode then some true
  else
    searchAux (forwardAdj g) toNode maxHops (fun e => e.1) (fun e => e.2)
      (fun e w => (w, e.2 + 1)) (fun _ => true) false (graphFuel g)
      [(fromNode, 0)] []

/-- Model of `TemporalGraph.get_shortest_path`.  The outer `Option` is the fuel
(`none` = the loop did not finish, which never happens); the inner `Option`
is the Python result (`None` = no path). -/
def get_shortest_path (g : TemporalGraph) (fromNode toNode : String)
    (maxHops : Nat := 10) : Option (Option (List String)) :=
  if (lookupNode g fromNode).isNone || (lookupNode g toNode).isNone then
    some none
  else if fromNode == toNode then some (some [fromNode])
  else
    searchAux (forwardAdj g) toNode maxHops (fun e => e.1)
      (fun e => e.2.2) (fun e w => (w, e.2.1 ++ [w], e.2.2 + 1))
      (fun e => some e.2.1) none (graphFuel g) [(fromNode, [fromNode], 0)] []

/-! ## Completeness of the pruned BFS

`_bfs_forward` / `_bfs_backward` visit every node reachable by a directed
path of at most `max_hops` edges all of whose expanded (non-final) nodes pass
the time-window test.  The proof runs a level invariant: the FIFO queue always
consists of a block of entries at some hop level `d` followed by a block at
`d + 1`, every visited node was visited at a hop level at most the current
one, and for every visited, expanded node each of its neighbours is either
already visited (one level deeper at most), still queued, or beyond the hop
budget. -/

/-- Paths the pruned BFS can follow: each step leaves a node that passes the
expansion test. -/
inductive ReachesWithin (adj : String → List String) (expandOk : String → Bool)
    (s : String) : String → Nat → Prop
  | refl : ReachesWithin adj expandOk s s 0
  | step {u w : String} {n : Nat} : ReachesWithin adj expandOk s u n →
      expandOk u = true → w ∈ adj u → ReachesWithin adj expandOk s w (n + 1)

/-- The BFS queue always consists of one block at hop level `d` followed by
one block at level `d + 1`. -/
def LevelQueue (q : List (String × Nat)) (d : Nat) : Prop :=
  ∃ q1 q2, q = q1 ++ q2 ∧ (∀ p ∈ q1, p.2 = d) ∧ (∀ p ∈ q2, p.2 = d + 1)

/-! ## Attention heads and the forward query window
(`totg_attention_fixed.py`, `BidirectionalAttention`) -/

/-- Model of `AttentionType` (`totg_attention_fixed.py`). -/
inductive AttentionType
  | forward
  | backward
  | bidirectional
  | temporalFocus
  | semanticFocus
deriving DecidableEq, Repr

/-- Model of `AttentionHead` (`totg_attention_fixed.py`). -/
structure AttentionHead where
  headId : String
  attentionType : AttentionType
  focusKeywords : List String := []
  temporalWindowDays : Int := 30
  decayFactor : ℚ := 95 / 100
deriving DecidableEq, Repr

/-- The four heads installed by
`BidirectionalAttention._initialize_default_heads`. -/
def defaultHeads : List AttentionHead :=
  [ { headId := "short_forward", attentionType := AttentionType.forward,
      temporalWindowDays := 7, decayFactor := 4 / 5 },
    { headId := "long_backward", attentionType := AttentionType.backward,
      temporalWindowDays := 90, decayFactor := 98 / 100 },
    { headId := "semantic_focus", attentionType := AttentionType.semanticFocus,
      temporalWindowDays := 30, decayFactor := 95 / 100,
      focusKeywords := ["important", "key", "critical", "main",
        "significant"] },
    { headId := "temporal_focus", attentionType := AttentionType.temporalFocus,
      temporalWindowDays := 14, decayFactor := 9 / 10 } ]

/-- Model of `max(h.temporal_window_days for h in heads)`: Python `max` over a
nonempty sequence (it raises on an empty one; `BidirectionalAttention`
always holds the four default heads, so the empty case never arises and is
mapped to `0`). -/
def maxWindow : List AttentionHead → Int
  | [] => 0
  | h :: t => t.foldl (fun m x => max m x.temporalWindowDays)
      h.temporalWindowDays

/-- The head filter `compute_forward_attention` applies when AGGREGATING
weights (not when querying): heads of type forward, bidirectional or
temporal-focus. -/
def isForwardRelevant (h : AttentionHead) : Bool :=
  decide (h.attentionType = AttentionType.forward) ||
  decide (h.attentionType = AttentionType.bidirectional) ||
  decide (h.attentionType = AttentionType.temporalFocus)

/-- Spec-side definition (for comparison with the code): "the widest window
among all heads relevant to the forward direction". -/
def specForwardRelevantWindow (heads : List AttentionHead) : Int :=
  maxWindow (heads.filter isForwardRelevant)

/-- The candidate-set acquisition of
`BidirectionalAttention.compute_forward_attention`: it calls
`get_forward_nodes(node_id, time_window_days = max(h.temporal_window_days
for h in self.attention_heads), max_results = max_nodes * 2)`, the maximum
ranging over ALL heads, with `max_hops` left at its default `5`. -/
def computeForwardCandidates (g : TemporalGraph) (heads : List AttentionHead)
    (nodeId : String) (maxNodes : Nat) : Option (List String) :=
  get_forward_nodes g nodeId (maxWindow heads) 5 (maxNodes * 2)

/-! ## Semantic similarity (`totg_attention_fixed.py`, `SemanticSimilarity`)

TF values are exact rationals; IDF uses `math.log`, so TF-IDF vectors are
real-valued. -/

/-- The stopword set of `SemanticSimilarity.__init__`. -/
def stopwords : List String :=
  ["the", "a", "an", "and", "or", "but", "in", "on", "at", "to", "for",
   "of", "with", "by", "from", "as", "is", "was", "are", "were", "be",
   "been", "being", "have", "has", "had", "do", "does", "did", "will",
   "would", "should", "could", "may", "might", "can", "this", "that",
   "these", "those", "i", "you", "he", "she", "it", "we", "they"]

/-- A regex word character (`\w`), on the ASCII range the claims exercise. -/
def isWordChar (c : Char) : Bool := c.isAlphanum || c == '_'

/-- Maximal runs of word characters: `re.findall(r"\b\w+\b", text)`. -/
def splitRunsAux : List Char → List Char → List (List Char)
  | [], acc => if acc.isEmpty then [] else [acc.reverse]
  | c :: cs, acc =>
    if isWordChar c then splitRunsAux cs (c :: acc)
    else if acc.isEmpty then splitRunsAux cs []
    else acc.reverse :: splitRunsAux cs []

/-- Model of `SemanticSimilarity._tokenize`: lowercase, split to word-character runs,
drop stopwords and tokens of length at most 2. -/
def tokenize (s : String) : List String :=
  ((splitRunsAux (s.toList.map Char.toLower) []).map
    (fun cs => String.mk cs)).filter
    (fun t => !stopwords.contains t && 2 < t.length)

/-- Model of `SemanticSimilarity` state: the document count and the term → document
frequency table. -/
structure SemanticSimilarity where
  documentCount : Nat := 0
  termDocumentFreq : List (String × Nat) := []
deriving Repr

/-- Model of `self.term_document_freq.get(token, 0)` (a `defaultdict(int)` read). -/
def dfGet (m : List (String × Nat)) (t : String) : Nat := (dictFind? m t).getD 0

/-- Model of `SemanticSimilarity.add_document`: increment the document count and, for
each distinct surviving token, its document frequency. -/
def add_document (st : SemanticSimilarity) (text : String) :
    SemanticSimilarity :=
  { documentCount := st.documentCount + 1
    termDocumentFreq := (firstDedup (tokenize text)).foldl
      (fun m t => dictInsert m t (dfGet m t + 1)) st.termDocumentFreq }

/-- The corpus state after a sequence of `add_document` calls on a fresh
`SemanticSimilarity`. -/
def semStateOf (texts : List String) : SemanticSimilarity :=
  texts.foldl add_document {}

/-- Model of `SemanticSimilarity.compute_tf`: raw term frequency. -/
def compute_tf (tokens : List String) : List (String × ℚ) :=
  if tokens.length = 0 then []
  else (firstDedup tokens).map
    (fun t => (t, (tokens.count t : ℚ) / (tokens.length : ℚ)))

/-- Model of `SemanticSimilarity.compute_idf`: `ln(document_count / doc_freq)`, `0`
when the corpus is empty or the term unseen. -/
noncomputable def compute_idf (st : SemanticSimilarity) (t : String) : ℝ :=
  if st.documentCount = 0 then 0
  else if dfGet st.termDocumentFreq t = 0 then 0
  else Real.log ((st.documentCount : ℝ) / (dfGet st.termDocumentFreq t : ℝ))

/-- Model of `SemanticSimilarity.compute_tfidf_vector`. -/
noncomputable def compute_tfidf_vector (st : SemanticSimilarity)
    (text : String) : List (String × ℝ) :=
  (compute_tf (tokenize text)).map
    (fun p => (p.1, (p.2 : ℝ) * compute_idf st p.1))

/-- The dot product over the intersecting term set: iterating the entries of
the first vector and looking each term up in the second is exactly the Python
sum over `set(vec1) & set(vec2)` whenever the first vector has no repeated
term (every vector built by `compute_tfidf_vector` does not). -/
def dotCommon (v1 v2 : List (String × ℝ)) : ℝ :=
  (v1.map (fun p =>
    match v2.find? (fun q => q.1 == p.1) with
    | some q => p.2 * q.2
    | none => 0)).sum

/-- The squared Euclidean norm `sum(v * v for v in vec.values())`. -/
def sumSq (v : List (String × ℝ)) : ℝ := (v.map (fun p => p.2 * p.2)).sum

section

open Classical

/-- Model of `SemanticSimilarity.cosine_similarity`.  The Python magnitude test
`mag == 0` compares `math.sqrt` results; `Real.sqrt` of the (nonnegative)
squared norm models it exactly. -/
noncomputable def cosine_similarity (v1 v2 : List (String × ℝ)) : ℝ :=
  match v1, v2 with
  | [], _ => 0
  | _ :: _, [] => 0
  | _ :: _, _ :: _ =>
    if Real.sqrt (sumSq v1) = 0 ∨ Real.sqrt (sumSq v2) = 0 then 0
    else dotCommon v1 v2 / (Real.sqrt (sumSq v1) * Real.sqrt (sumSq v2))

end

/-! ## Markovian chunked analysis (`totg_markovian.py`) -/

/-- The plain document record the API façade hands to `MarkovianTOTG`
(`totg_api.NodeData`), restricted to the fields the analyzer reads. -/
structure NodeData where
  id : String
  timestamp : Int
  dtype : String := ""
  content : String := ""
deriving DecidableEq, Repr

/-- One critical-event record
(`{"doc_id": …, "timestamp": …, "type": …, "importance": …, "summary": …}`);
every event the analyzer builds carries an `importance`, read back with
`e.get("importance", 0.5)`. -/
structure CriticalEvent where
  docId : String
  timestamp : Int := 0
  eventType : String := ""
  importance : ℚ := 1 / 2
  summary : String := ""
deriving DecidableEq, Repr

/-- One entity record (`{"mentions": …, "first_seen": …, "last_seen": …}`). -/
structure EntityData where
  mentions : Int := 0
  firstSeen : Int := 0
  lastSeen : Int := 0
deriving DecidableEq, Repr

/-- Model of `TemporalCarryover` (`totg_markovian.py`). -/
structure TemporalCarryover where
  criticalEvents : List CriticalEvent := []
  keyEntities : List (String × EntityData) := []
  causalChains : List (String × String × String) := []
  attentionScores : List (String × ℚ) := []
  openQuestions : List String := []
  chunkIndex : Nat := 0
  timeRange : Option Int × Option Int := (none, none)
  documentCount : Nat := 0
deriving Repr

/-- Model of `TemporalCarryover.get_size`: the sum of the list/map lengths. -/
def TemporalCarryover.get_size (c : TemporalCarryover) : Nat :=
  c.criticalEvents.length + c.keyEntities.length + c.causalChains.length +
    c.attentionScores.length + c.openQuestions.length

/-- Model of `ChunkResult` (`totg_markovian.py`), restricted to the fields
`_extract_carryover` and the analysis loop read. -/
structure ChunkResult where
  chunkIndex : Nat := 0
  startTime : Int := 0
  endTime : Int := 0
  documents : List NodeData := []
  docIds : List String := []
  criticalEvents : List CriticalEvent := []
  causalRelationships : List (String × String × String) := []
  keyEntities : List (String × EntityData) := []
deriving Repr

/-- The tunables of `MarkovianTOTG.__init__`. -/
structure MarkovianConfig where
  chunkSizeDays : Int := 90
  maxCarryoverEvents : Nat := 10
  maxCarryoverChains : Nat := 20
  maxCarryoverEntities : Nat := 15
deriving Repr

/-- Model of `MarkovianTOTG._extract_carryover`: merge the previous carryover with a
chunk result and trim every component to its cap. -/
def extractCarryover (cfg : MarkovianConfig) (chunk : ChunkResult)
    (prev : TemporalCarryover) : TemporalCarryover :=
  let sortedEvents := stableSort (fun a b => b.importance ≤ a.importance)
    (prev.criticalEvents ++ chunk.criticalEvents)
  let criticalEvents := pyTake cfg.maxCarryoverEvents sortedEvents
  let mergedEntities := chunk.keyEntities.foldl
    (fun m ed =>
      match dictFind? m ed.1 with
      | some old => dictInsert m ed.1
          { mentions := old.mentions + ed.2.mentions
            firstSeen := old.firstSeen
            lastSeen := ed.2.lastSeen }
      | none => dictInsert m ed.1 ed.2) prev.keyEntities
  let keyEntities := pyTake cfg.maxCarryoverEntities
    (stableSort (fun a b => b.2.mentions ≤ a.2.mentions) mergedEntities)
  let causalChains := pyTakeLast cfg.maxCarryoverChains
    (prev.causalChains ++ chunk.causalRelationships)
  let attentionBase := (pyTakeLast 10 chunk.docIds).foldl
    (fun m d => dictInsert m d ((4 : ℚ) / 5)) []
  let attentionScores := criticalEvents.foldl
    (fun m e => dictInsert m e.docId (1 : ℚ)) attentionBase
  { criticalEvents := criticalEvents
    keyEntities := keyEntities
    causalChains := causalChains
    attentionScores := attentionScores
    openQuestions := prev.openQuestions
    chunkIndex := prev.chunkIndex + 1
    timeRange := (prev.timeRange.1, some chunk.endTime)
    documentCount := prev.documentCount + chunk.documents.length }

/-- The carryover `analyze_long_chain` starts from (all components empty). -/
def initialCarryover (startTime : Int) : TemporalCarryover :=
  { criticalEvents := []
    keyEntities := []
    causalChains := []
    attentionScores := []
    openQuestions := []
    chunkIndex := 0
    timeRange := (some startTime, none)
    documentCount := 0 }

/-- The per-iteration state updates of the `while current_time < end_time:`
loop of `analyze_long_chain`: `state = _extract_carryover(chunk, state)`,
then `state.chunk_index += 1` and `state.document_count = total_docs`.  The
chunk results come from `_process_chunk`; the carryover bounds hold for
arbitrary chunk results, so the states are expressed over any chunk-result
sequence. -/
def carryStates (cfg : MarkovianConfig) :
    TemporalCarryover → Nat → List ChunkResult → List TemporalCarryover
  | _, _, [] => []
  | st, totalDocs, chunk :: rest =>
    let td := totalDocs + chunk.documents.length
    let s1 := extractCarryover cfg chunk st
    let s2 := { s1 with chunkIndex := s1.chunkIndex + 1, documentCount := td }
    s2 :: carryStates cfg s2 td rest

/-- In `_identify_causal_relationships` the relation-type lookup builds
`edge_key = (doc.id, target_id)` — a tuple — and tests
`edge_key in self.api.graph.edges`, but `TemporalGraph.edges` is keyed by
single node-id strings, so a tuple key is never present: the test is always
false and the relation type keeps its default `"sequential"`. -/
def causalRelType (g : TemporalGraph) (fromId toId : String) : String :=
  "sequential"

/-- Model of `MarkovianTOTG._identify_causal_relationships`: for each in-chunk
document, for each id returned by `get_forward_nodes(doc.id)` (all arguments
at their defaults) that also belongs to the chunk, emit a
`(from, to, relation-type)` triple. -/
def identifyCausalRelationships (g : TemporalGraph)
    (documents : List NodeData) : Option (List (String × String × String)) :=
  documents.foldl
    (fun acc doc => acc.bind (fun l =>
      (get_forward_nodes g doc.id 30 5 50).map (fun fwd =>
        l ++ (fwd.filter (fun t => documents.any (fun d => d.id == t))).map
          (fun t => (doc.id, t, causalRelType g doc.id t)))))
    (some [])

/-- The value the dot product reads from the second vector: the first entry
with the given term, or `0`. -/
def getVal (v2 : List (String × ℝ)) (k : String) : ℝ :=
  match v2.find? (fun q => q.1 == k) with
  | some q => q.2
  | none => 0

/-- One occurrence, counted with an explicit decidable-equality predicate. -/
def countOcc {α : Type} [DecidableEq α] (a : α) (l : List α) : Nat :=
  l.countP (fun x => decide (x = a))

/-! ## The claims -/

/-- The five-document legal chain of the end-to-end scenario:
contract (day 0) → amendment (day 15) → claim (day 50) → response (day 65)
→ settlement (day 80). -/
def chainGraph : TemporalGraph :=
  addEdges (addNodes {} [
    { id := "contract", timestamp := 0 },
    { id := "amendment", timestamp := 15 },
    { id := "claim", timestamp := 50 },
    { id := "response", timestamp := 65 },
    { id := "settlement", timestamp := 80 }])
    [ { fromNode := "contract", toNode := "amendment",
        relation := TemporalRelation.sequential },
      { fromNode := "amendment", toNode := "claim",
        relation := TemporalRelation.causal },
      { fromNode := "claim", toNode := "response",
        relation := TemporalRelation.sequential },
      { fromNode := "response", toNode := "settlement",
        relation := TemporalRelation.causal } ]

/-- The boundary graph for C3: `a` (day 0) has successors `b` exactly at the
5-day window end and `c` one day beyond it. -/
def boundaryGraph : TemporalGraph :=
  addEdges (addNodes {} [
    { id := "a", timestamp := 0 },
    { id := "b", timestamp := 5 },
    { id := "c", timestamp := 6 }])
    [ { fromNode := "a", toNode := "b",
        relation := TemporalRelation.sequential },
      { fromNode := "a", toNode := "c",
        relation := TemporalRelation.sequential } ]

/-- The two-node graph for the C7 witness: `x` (day 10) and `y` (day 0). -/
def warnGraph : TemporalGraph :=
  addNodes {} [{ id := "x", timestamp := 10 }, { id := "y", timestamp := 0 }]

/-- A causal edge running backward in time (from day 10 to day 0). -/
def warnEdge : TemporalEdge :=
  { fromNode := "x", toNode := "y", relation := TemporalRelation.causal }

/-- The graph for C5: `fa` at day 0 with one successor `fb` at day 60 —
inside the 90-day window of the backward head, outside the window of every
forward-relevant head. -/
def attnGraph : TemporalGraph :=
  addEdges (addNodes {} [
    { id := "fa", timestamp := 0 },
    { id := "fb", timestamp := 60 }])
    [ { fromNode := "fa", toNode := "fb",
        relation := TemporalRelation.sequential } ]

/-- The long-backward default head, named for the C5 witness. -/
def longBackwardHead : AttentionHead :=
  { headId := "long_backward"
    attentionType := AttentionType.backward
    temporalWindowDays := 90
    decayFactor := 98 / 100 }

/-- The graph for C6: a causal edge `ca → cb` between two in-chunk
documents. -/
def causalGraph : TemporalGraph :=
  addEdges (addNodes {} [
    { id := "ca", timestamp := 0 },
    { id := "cb", timestamp := 1 }])
    [ { fromNode := "ca", toNode := "cb",
        relation := TemporalRelation.causal } ]

/-- The chunk documents for C6. -/
def causalDocs : List NodeData :=
  [{ id := "ca", timestamp := 0 }, { id := "cb", timestamp := 1 }]

theorem length_insortR (x : Int × String) (l : List (Int × String)) :
    (insortR x l).length = l.length + 1 := by
  induction l with
  | nil => rfl
  | cons y ys ih =>
    by_cases h : tupLe y x = true
    · simp [insortR, h, ih]
    · simp [insortR, h]

theorem length_dictInsert {α : Type} (m : List (String × α)) (k : String)
    (v : α) : (dictInsert m k v).length ≤ m.length + 1 := by
  induction m with
  | nil => simp [dictInsert]
  | cons p ps ih =>
    by_cases h : (p.1 == k) = true
    · simp [dictInsert, h]
    · simp only [dictInsert, h, if_false, Bool.false_eq_true,
        List.length_cons]
      omega

/-- Looking a key up after a dict assignment. -/
theorem dictFind?_dictInsert {α : Type} (m : List (String × α)) (k t : String)
    (v : α) : dictFind? (dictInsert m k v) t =
      if t = k then some v else dictFind? m t := by
  induction m with
  | nil =>
    by_cases h : t = k
    · simp [dictInsert, dictFind?, h]
    · have hkt : (k == t) = false := by
        simp only [beq_eq_false_iff_ne, ne_eq]
        exact fun hc => h hc.symm
      simp [dictInsert, dictFind?, h, hkt]
  | cons p ps ih =>
    by_cases hpk : (p.1 == k) = true
    · have hpk' : p.1 = k := by simpa using hpk
      by_cases h : t = k
      · simp [dictInsert, dictFind?, hpk, h]
      · have hkt : (k == t) = false := by
          simp only [beq_eq_false_iff_ne, ne_eq]
          exact fun hc => h hc.symm
        have hpt : (p.1 == t) = false := by rw [hpk']; exact hkt
        simp [dictInsert, dictFind?, hpk, hkt, hpt, h]
    · by_cases hpt : (p.1 == t) = true
      · have hpt' : p.1 = t := by simpa using hpt
        have h : ¬ t = k := by
          intro hc
          exact (by simpa using hpk : ¬ p.1 = k) (hpt'.trans hc)
      -- the head matches `t`, so both sides return its value
        simp [dictInsert, dictFind?, hpk, hpt, h]
      · simp only [dictInsert, hpk, if_false, Bool.false_eq_true]
        unfold dictFind? at ih ⊢
        simp only [List.find?_cons, hpt]
        exact ih

theorem stInsert_perm {α : Type} (le : α → α → Bool) (x : α) (l : List α) :
    (stInsert le x l).Perm (x :: l) := by
  induction l with
  | nil => exact List.Perm.refl _
  | cons y ys ih =>
    by_cases h : le y x = true
    · simpa [stInsert, h] using
        ((ih.cons y).trans (List.Perm.swap x y ys)).symm.symm
    · simp [stInsert, h]

theorem stableSort_foldl_perm {α : Type} (le : α → α → Bool) :
    ∀ (l acc : List α),
      (l.foldl (fun acc x => stInsert le x acc) acc).Perm (acc ++ l) := by
  intro l
  induction l with
  | nil => intro acc; simp
  | cons x xs ih =>
    intro acc
    have h1 : ((x :: xs).foldl (fun acc x => stInsert le x acc) acc)
        = xs.foldl (fun acc x => stInsert le x acc) (stInsert le x acc) := rfl
    have h2 := ih (stInsert le x acc)
    have h3 : (stInsert le x acc ++ xs).Perm ((x :: acc) ++ xs) :=
      (stInsert_perm le x acc).append_right xs
    have h4 : ((x :: acc) ++ xs).Perm (acc ++ x :: xs) := by
      have h5 : (acc ++ x :: xs).Perm (x :: (acc ++ xs)) := List.perm_middle
      simpa using h5.symm
    rw [h1]
    exact (h2.trans h3).trans h4

theorem stableSort_perm {α : Type} (le : α → α → Bool) (l : List α) :
    (stableSort le l).Perm l := by
  simpa [stableSort] using stableSort_foldl_perm le l []

theorem mem_stableSort {α : Type} (le : α → α → Bool) (x : α) (l : List α) :
    x ∈ stableSort le l ↔ x ∈ l :=
  (stableSort_perm le l).mem_iff

theorem length_stableSort {α : Type} (le : α → α → Bool) (l : List α) :
    (stableSort le l).length = l.length :=
  (stableSort_perm le l).length_eq

/-! ## Termination of the worklist loops

Every iteration pops one queue entry; entries are only appended when a node
is freshly visited, and then at most one entry per edge keyed at that node.
The potential `|queue| + #(edges whose key is unvisited)` therefore drops by
at least one per iteration, so fuel exceeding the initial potential makes the
loop reach the empty queue. -/

theorem contains_append_one (l : List String) (a c : String) :
    ((l ++ [c]).contains a) = (l.contains a || (a == c)) := by
  have hb : (a == c) = decide (a = c) := rfl
  simp [List.mem_append, hb]

theorem countP_split_key (edges : List TemporalEdge)
    (key : TemporalEdge → String) (visited : List String) (c : String)
    (hc : visited.contains c = false) :
    edges.countP (fun e => !visited.contains (key e)) =
      edges.countP (fun e => !(visited ++ [c]).contains (key e)) +
      edges.countP (fun e => key e == c) := by
  induction edges with
  | nil => rfl
  | cons e es ih =>
    simp only [List.countP_cons, ih, contains_append_one]
    cases hk : (key e == c) with
    | true =>
      have hkeq : key e = c := by simpa using hk
      rw [hkeq, hc]
      simp
      omega
    | false =>
      cases hv : visited.contains (key e) with
      | true => simp
      | false =>
        simp
        omega

theorem length_mkAdj (edges : List TemporalEdge)
    (key nbr : TemporalEdge → String) (c : String) :
    (mkAdj edges key nbr c).length = edges.countP (fun e => key e == c) := by
  simp [mkAdj, List.countP_eq_length_filter]

theorem bfsAux_isSome (edges : List TemporalEdge)
    (key nbr : TemporalEdge → String) (expandOk : String → Bool)
    (maxHops : Nat) :
    ∀ (fuel : Nat) (queue : List (String × Nat)) (visited : List String),
      queue.length + edges.countP (fun e => !visited.contains (key e)) <
        fuel →
      (bfsAux (mkAdj edges key nbr) expandOk maxHops fuel queue
        visited).isSome := by
  intro fuel
  induction fuel with
  | zero => intro queue visited h; exact absurd h (Nat.not_lt_zero _)
  | succ f ih =>
    intro queue visited h
    match queue with
    | [] => simp [bfsAux]
    | (c, hops) :: rest =>
      by_cases hskip : (visited.contains c || decide (maxHops < hops)) = true
      · rw [bfsAux, if_pos hskip]
        apply ih
        simp only [List.length_cons] at h
        omega
      · rw [bfsAux, if_neg hskip]
        have hc : visited.contains c = false := by
          simp only [Bool.or_eq_true, not_or, Bool.not_eq_true,
            decide_eq_true_eq] at hskip
          exact hskip.1
        have hsplit := countP_split_key edges key visited c hc
        by_cases hexp : expandOk c = true
        · simp only [hexp, if_true]
          apply ih
          have hlen : (((mkAdj edges key nbr c).filter
              (fun w => !(visited ++ [c]).contains w)).map
              (fun w => (w, hops + 1))).length ≤
              edges.countP (fun e => key e == c) := by
            rw [List.length_map]
            calc ((mkAdj edges key nbr c).filter
                (fun w => !(visited ++ [c]).contains w)).length
                ≤ (mkAdj edges key nbr c).length :=
                  List.length_filter_le _ _
              _ = edges.countP (fun e => key e == c) :=
                  length_mkAdj edges key nbr c
          simp only [List.length_append, List.length_cons] at h ⊢
          omega
        · simp only [hexp, if_false]
          apply ih
          simp only [List.length_cons] at h
          omega

theorem bfsForward_isSome (g : TemporalGraph) (startNode : String)
    (maxHops : Nat) (endTime : Int) :
    (bfsForward g startNode maxHops endTime).isSome := by
  apply bfsAux_isSome g.edgeList (fun e => e.fromNode) (fun e => e.toNode)
  have := List.countP_le_length
    (p := fun e => !([] : List String).contains (e.fromNode))
    (l := g.edgeList)
  simp only [graphFuel, List.length_cons, List.length_nil]
  omega

theorem bfsBackward_isSome (g : TemporalGraph) (targetNode : String)
    (maxHops : Nat) (startTime : Int) :
    (bfsBackward g targetNode maxHops startTime).isSome := by
  apply bfsAux_isSome g.edgeList (fun e => e.toNode) (fun e => e.fromNode)
  have := List.countP_le_length
    (p := fun e => !([] : List String).contains (e.toNode))
    (l := g.edgeList)
  simp only [graphFuel, List.length_cons, List.length_nil]
  omega

theorem forwardCandidates_isSome (g : TemporalGraph) (nodeId : String)
    (timeWindowDays : Int) (maxHops : Nat) :
    (forwardCandidates g nodeId timeWindowDays maxHops).isSome := by
  unfold forwardCandidates
  cases hl : lookupNode g nodeId with
  | none => simp
  | some src => simpa using bfsForward_isSome g nodeId maxHops _

theorem backwardCandidates_isSome (g : TemporalGraph) (nodeId : String)
    (timeWindowDays : Int) (maxHops : Nat) :
    (backwardCandidates g nodeId timeWindowDays maxHops).isSome := by
  unfold backwardCandidates
  cases hl : lookupNode g nodeId with
  | none => simp
  | some tgt => simpa using bfsBackward_isSome g nodeId maxHops _

theorem get_forward_nodes_isSome (g : TemporalGraph) (nodeId : String)
    (timeWindowDays : Int) (maxHops maxResults : Nat) :
    (get_forward_nodes g nodeId timeWindowDays maxHops maxResults).isSome := by
  unfold get_forward_nodes
  simpa using forwardCandidates_isSome g nodeId timeWindowDays maxHops

theorem get_backward_nodes_isSome (g : TemporalGraph) (nodeId : String)
    (timeWindowDays : Int) (maxHops maxResults : Nat) :
    (get_backward_nodes g nodeId timeWindowDays maxHops maxResults).isSome := by
  unfold get_backward_nodes
  simpa using backwardCandidates_isSome g nodeId timeWindowDays maxHops

theorem searchAux_isSome {ε ρ : Type} (edges : List TemporalEdge)
    (key nbr : TemporalEdge → String) (toNode : String) (maxHops : Nat)
    (eid : ε → String) (ehops : ε → Nat) (echild : ε → String → ε)
    (found : ε → ρ) (notFound : ρ) :
    ∀ (fuel : Nat) (queue : List ε) (visited : List String),
      queue.length + edges.countP (fun e => !visited.contains (key e)) <
        fuel →
      (searchAux (mkAdj edges key nbr) toNode maxHops eid ehops echild found
        notFound fuel queue visited).isSome := by
  intro fuel
  induction fuel with
  | zero => intro queue visited h; exact absurd h (Nat.not_lt_zero _)
  | succ f ih =>
    intro queue visited h
    match queue with
    | [] => simp [searchAux]
    | e :: rest =>
      by_cases hfound : (eid e == toNode) = true
      · rw [searchAux, if_pos hfound]; rfl
      · by_cases hskip :
            (visited.contains (eid e) || decide (maxHops < ehops e)) = true
        · rw [searchAux, if_neg hfound, if_pos hskip]
          apply ih
          simp only [List.length_cons] at h
          omega
        · rw [searchAux, if_neg hfound, if_neg hskip]
          have hc : visited.contains (eid e) = false := by
            simp only [Bool.or_eq_true, not_or, Bool.not_eq_true,
              decide_eq_true_eq] at hskip
            exact hskip.1
          have hsplit := countP_split_key edges key visited (eid e) hc
          apply ih
          have hlen : (((mkAdj edges key nbr (eid e)).filter
              (fun w => !(visited ++ [eid e]).contains w)).map
              (echild e)).length ≤
              edges.countP (fun x => key x == eid e) := by
            rw [List.length_map]
            calc ((mkAdj edges key nbr (eid e)).filter
                (fun w => !(visited ++ [eid e]).contains w)).length
                ≤ (mkAdj edges key nbr (eid e)).length :=
                  List.length_filter_le _ _
              _ = edges.countP (fun x => key x == eid e) :=
                  length_mkAdj edges key nbr (eid e)
          simp only [List.length_append, List.length_cons] at h ⊢
          omega

theorem has_path_isSome (g : TemporalGraph) (fromNode toNode : String)
    (maxHops : Nat) : (has_path g fromNode toNode maxHops).isSome := by
  unfold has_path
  by_cases h1 : ((lookupNode g fromNode).isNone ||
      (lookupNode g toNode).isNone) = true
  · simp [h1]
  · simp only [h1, if_false, Bool.false_eq_true]
    by_cases h2 : (fromNode == toNode) = true
    · simp [h2]
    · simp only [h2, if_false, Bool.false_eq_true]
      apply searchAux_isSome g.edgeList (fun e => e.fromNode)
        (fun e => e.toNode) toNode maxHops
      have := List.countP_le_length
        (p := fun e => !([] : List String).contains (e.fromNode))
        (l := g.edgeList)
      simp only [graphFuel, List.length_cons, List.length_nil]
      omega

theorem get_shortest_path_isSome (g : TemporalGraph)
    (fromNode toNode : String) (maxHops : Nat) :
    (get_shortest_path g fromNode toNode maxHops).isSome := by
  unfold get_shortest_path
  by_cases h1 : ((lookupNode g fromNode).isNone ||
      (lookupNode g toNode).isNone) = true
  · simp [h1]
  · simp only [h1, if_false, Bool.false_eq_true]
    by_cases h2 : (fromNode == toNode) = true
    · simp [h2]
    · simp only [h2, if_false, Bool.false_eq_true]
      apply searchAux_isSome g.edgeList (fun e => e.fromNode)
        (fun e => e.toNode) toNode maxHops
      have := List.countP_le_length
        (p := fun e => !([] : List String).contains (e.fromNode))
        (l := g.edgeList)
      simp only [graphFuel, List.length_cons, List.length_nil]
      omega

/-- The visited list never acquires a duplicate: a node id is marked visited
at most once per traversal. -/
theorem bfsAux_nodup (adj : String → List String) (expandOk : String → Bool)
    (maxHops : Nat) :
    ∀ (fuel : Nat) (queue : List (String × Nat)) (visited : List String)
      (out : List String), visited.Nodup →
      bfsAux adj expandOk maxHops fuel queue visited = some out →
      out.Nodup := by
  intro fuel
  induction fuel with
  | zero =>
    intro queue visited out hnd hrun
    match queue with
    | [] => cases hrun; exact hnd
    | _ :: _ => exact absurd hrun (by simp [bfsAux])
  | succ f ih =>
    intro queue visited out hnd hrun
    match queue with
    | [] => cases hrun; exact hnd
    | (c, hops) :: rest =>
      by_cases hskip : (visited.contains c || decide (maxHops < hops)) = true
      · rw [bfsAux, if_pos hskip] at hrun
        exact ih rest visited out hnd hrun
      · rw [bfsAux, if_neg hskip] at hrun
        have hc : visited.contains c = false := by
          simp only [Bool.or_eq_true, not_or, Bool.not_eq_true,
            decide_eq_true_eq] at hskip
          exact hskip.1
        have hnd' : (visited ++ [c]).Nodup := by
          simp [List.nodup_append, hnd]
          simpa using hc
        by_cases hexp : expandOk c = true
        · simp only [hexp, if_true] at hrun
          exact ih _ _ out hnd' hrun
        · simp only [hexp, if_false] at hrun
          exact ih _ _ out hnd' hrun

theorem levelQueue_cons {c : String} {h d : Nat} {rest : List (String × Nat)}
    (hq : LevelQueue ((c, h) :: rest) d) : d ≤ h ∧ LevelQueue rest h := by
  obtain ⟨q1, q2, heq, h1, h2⟩ := hq
  cases q1 with
  | nil =>
    simp only [List.nil_append] at heq
    have hh : h = d + 1 := by
      have := h2 (c, h) (heq ▸ List.mem_cons_self _ _)
      simpa using this
    refine ⟨by omega, rest, [], by simp, ?_, by simp⟩
    intro p hp
    have hp2 : p ∈ q2 := by rw [← heq]; exact List.mem_cons_of_mem _ hp
    rw [h2 p hp2, hh]
  | cons a q1' =>
    simp only [List.cons_append, List.cons.injEq] at heq
    obtain ⟨ha, hrest⟩ := heq
    have hh : h = d := by
      have htop := h1 a (List.mem_cons_self _ _)
      rw [← ha] at htop
      simpa using htop
    subst hh
    exact ⟨le_refl _, q1', q2, hrest, fun p hp =>
      h1 p (List.mem_cons_of_mem _ hp), h2⟩

theorem levelQueue_append {rest : List (String × Nat)} {h : Nat}
    (hq : LevelQueue rest h) (news : List (String × Nat))
    (hnews : ∀ p ∈ news, p.2 = h + 1) : LevelQueue (rest ++ news) h := by
  obtain ⟨q1, q2, rfl, h1, h2⟩ := hq
  refine ⟨q1, q2 ++ news, by simp, h1, ?_⟩
  intro p hp
  rcases List.mem_append.mp hp with hp | hp
  · exact h2 p hp
  · exact hnews p hp

/-- The BFS loop invariant, pushed through to the final visited set: any run
that finishes yields a visit-level assignment `va2` under which (a) already
visited nodes keep their level and end up in the output, (b) every queued
entry is either beyond the hop budget or ends up visited at a level at most
its queued hop count, and (c) the output is closed under expansion one level
at a time, up to the hop budget. -/
theorem bfsAux_closure (adj : String → List String) (expandOk : String → Bool)
    (maxHops : Nat) :
    ∀ (fuel : Nat) (queue : List (String × Nat)) (visited : List String)
      (d : Nat) (va : String → Nat) (out : List String),
      LevelQueue queue d →
      (∀ u ∈ visited, va u ≤ d) →
      (∀ u ∈ visited, expandOk u = true → ∀ w ∈ adj u,
        (w ∈ visited ∧ va w ≤ va u + 1) ∨
        (∃ h, (w, h) ∈ queue ∧ h ≤ va u + 1) ∨ maxHops < va u + 1) →
      bfsAux adj expandOk maxHops fuel queue visited = some out →
      ∃ va2 : String → Nat,
        (∀ u ∈ visited, va2 u = va u) ∧
        (∀ u ∈ visited, u ∈ out) ∧
        (∀ p ∈ queue, maxHops < p.2 ∨ (p.1 ∈ out ∧ va2 p.1 ≤ p.2)) ∧
        (∀ u ∈ out, expandOk u = true → ∀ w ∈ adj u,
          (w ∈ out ∧ va2 w ≤ va2 u + 1) ∨ maxHops < va2 u + 1) := by
  intro fuel
  induction fuel with
  | zero =>
    intro queue visited d va out _ _ hG hrun
    match queue with
    | [] =>
      cases hrun
      refine ⟨va, fun u _ => rfl, fun u hu => hu, by simp, ?_⟩
      intro u hu hok w hw
      rcases hG u hu hok w hw with h1 | h2 | h3
      · exact Or.inl h1
      · obtain ⟨h, hmem, _⟩ := h2
        exact absurd hmem (List.not_mem_nil _)
      · exact Or.inr h3
    | _ :: _ => exact absurd hrun (by simp [bfsAux])
  | succ f ih =>
    intro queue visited d va out hL hV hG hrun
    match queue with
    | [] =>
      cases hrun
      refine ⟨va, fun u _ => rfl, fun u hu => hu, by simp, ?_⟩
      intro u hu hok w hw
      rcases hG u hu hok w hw with h1 | h2 | h3
      · exact Or.inl h1
      · obtain ⟨h, hmem, _⟩ := h2
        exact absurd hmem (List.not_mem_nil _)
      · exact Or.inr h3
    | (c, h) :: rest =>
      obtain ⟨hdh, hrestL⟩ := levelQueue_cons hL
      have hVh : ∀ u ∈ visited, va u ≤ h := fun u hu => le_trans (hV u hu) hdh
      by_cases hcv : visited.contains c = true
      · -- already visited: the entry is discarded
        have hcmem : c ∈ visited := by simpa using hcv
        rw [bfsAux,
          if_pos (by simp only [Bool.or_eq_true]; exact Or.inl hcv)] at hrun
        have hG' : ∀ u ∈ visited, expandOk u = true → ∀ w ∈ adj u,
            (w ∈ visited ∧ va w ≤ va u + 1) ∨
            (∃ h2, (w, h2) ∈ rest ∧ h2 ≤ va u + 1) ∨ maxHops < va u + 1 := by
          intro u hu hok w hw
          rcases hG u hu hok w hw with h1 | ⟨h2, hmem, hle⟩ | h3
          · exact Or.inl h1
          · rcases List.mem_cons.mp hmem with heq | hmem2
            · obtain ⟨hw2, hh2⟩ := Prod.mk.injEq .. ▸ heq
              exact Or.inl ⟨hw2 ▸ hcmem,
                le_trans (le_trans (hVh w (hw2 ▸ hcmem)) (hh2 ▸ hle))
                  (le_refl _)⟩
            · exact Or.inr (Or.inl ⟨h2, hmem2, hle⟩)
          · exact Or.inr (Or.inr h3)
        obtain ⟨va2, heq2, hvis2, hq2, hcl2⟩ :=
          ih rest visited h va out hrestL hVh hG' hrun
        refine ⟨va2, heq2, hvis2, ?_, hcl2⟩
        intro p hp
        rcases List.mem_cons.mp hp with hph | hpr
        · subst hph
          exact Or.inr ⟨hvis2 c hcmem, (heq2 c hcmem) ▸ hVh c hcmem⟩
        · exact hq2 p hpr
      · by_cases hhop : maxHops < h
        · -- beyond the hop budget: the entry is discarded
          rw [bfsAux, if_pos (by
            simp only [Bool.or_eq_true, decide_eq_true_eq]
            exact Or.inr hhop)] at hrun
          have hG' : ∀ u ∈ visited, expandOk u = true → ∀ w ∈ adj u,
              (w ∈ visited ∧ va w ≤ va u + 1) ∨
              (∃ h2, (w, h2) ∈ rest ∧ h2 ≤ va u + 1) ∨
              maxHops < va u + 1 := by
            intro u hu hok w hw
            rcases hG u hu hok w hw with h1 | ⟨h2, hmem, hle⟩ | h3
            · exact Or.inl h1
            · rcases List.mem_cons.mp hmem with heq | hmem2
              · obtain ⟨_, hh2⟩ := Prod.mk.injEq .. ▸ heq
                exact Or.inr (Or.inr (lt_of_lt_of_le hhop (hh2 ▸ hle)))
              · exact Or.inr (Or.inl ⟨h2, hmem2, hle⟩)
            · exact Or.inr (Or.inr h3)
          obtain ⟨va2, heq2, hvis2, hq2, hcl2⟩ :=
            ih rest visited h va out hrestL hVh hG' hrun
          refine ⟨va2, heq2, hvis2, ?_, hcl2⟩
          intro p hp
          rcases List.mem_cons.mp hp with hph | hpr
          · subst hph; exact Or.inl hhop
          · exact hq2 p hpr
        · -- fresh node: visit it
          rw [bfsAux, if_neg (by
            simp only [Bool.or_eq_true, decide_eq_true_eq, not_or]
            exact ⟨hcv, hhop⟩)] at hrun
          have hcnot : c ∉ visited := by
            intro hmem
            exact hcv (by simpa using hmem)
          set va' : String → Nat := fun u => if u = c then h else va u with hva'
          have hva'c : va' c = h := by simp [hva']
          have hva'old : ∀ u ∈ visited, va' u = va u := by
            intro u hu
            have : u ≠ c := fun hne => hcnot (hne ▸ hu)
            simp [hva', this]
          have hVnew : ∀ u ∈ visited ++ [c], va' u ≤ h := by
            intro u hu
            rcases List.mem_append.mp hu with hu | hu
            · exact (hva'old u hu) ▸ hVh u hu
            · simp only [List.mem_singleton] at hu
              subst hu
              exact le_of_eq hva'c
          have hmemnew : ∀ u ∈ visited ++ [c], u ∈ visited ∨ u = c := by
            intro u hu
            rcases List.mem_append.mp hu with hu | hu
            · exact Or.inl hu
            · simp only [List.mem_singleton] at hu
              exact Or.inr hu
          by_cases hexp : expandOk c = true
          · -- visit and expand
            simp only [hexp, if_true] at hrun
            set news := ((adj c).filter
              (fun w => !(visited ++ [c]).contains w)).map
              (fun w => (w, h + 1)) with hnews
            have hLnew : LevelQueue (rest ++ news) h := by
              refine levelQueue_append hrestL news ?_
              intro p hp
              simp only [hnews, List.mem_map] at hp
              obtain ⟨w, _, rfl⟩ := hp
              rfl
            have hGnew : ∀ u ∈ visited ++ [c], expandOk u = true →
                ∀ w ∈ adj u,
                (w ∈ visited ++ [c] ∧ va' w ≤ va' u + 1) ∨
                (∃ h2, (w, h2) ∈ rest ++ news ∧ h2 ≤ va' u + 1) ∨
                maxHops < va' u + 1 := by
              intro u hu hok w hw
              rcases hmemnew u hu with hu2 | hu2
              · -- an old visited node
                rw [hva'old u hu2]
                rcases hG u hu2 hok w hw with ⟨h1a, h1b⟩ | ⟨h2, hmem, hle⟩ | h3
                · exact Or.inl ⟨List.mem_append_left _ h1a,
                    (hva'old w h1a) ▸ h1b⟩
                · rcases List.mem_cons.mp hmem with heq | hmem2
                  · obtain ⟨hw2, hh2⟩ := Prod.mk.injEq .. ▸ heq
                    refine Or.inl ⟨?_, ?_⟩
                    · rw [hw2]; exact List.mem_append_right _ (by simp)
                    · rw [hw2, hva'c, ← hh2]; exact hle
                  · exact Or.inr (Or.inl ⟨h2, List.mem_append_left _ hmem2,
                      hle⟩)
                · exact Or.inr (Or.inr h3)
              · -- the newly visited node c
                rw [hu2] at hok hw ⊢
                rw [hva'c]
                by_cases hwv : (visited ++ [c]).contains w = true
                · have hwmem : w ∈ visited ++ [c] := by simpa using hwv
                  refine Or.inl ⟨hwmem, ?_⟩
                  exact le_trans (hVnew w hwmem) (by omega)
                · refine Or.inr (Or.inl ⟨h + 1, ?_, le_refl _⟩)
                  refine List.mem_append_right _ ?_
                  simp only [hnews, List.mem_map]
                  refine ⟨w, ?_, rfl⟩
                  rw [List.mem_filter]
                  have hwnot : w ∉ visited ++ [c] := fun hm =>
                    hwv (by simpa using hm)
                  refine ⟨hw, ?_⟩
                  simpa using hwnot
            obtain ⟨va2, heq2, hvis2, hq2, hcl2⟩ :=
              ih (rest ++ news) (visited ++ [c]) h va' out hLnew hVnew
                hGnew hrun
            have hva2old : ∀ u ∈ visited, va2 u = va u := by
              intro u hu
              rw [heq2 u (List.mem_append_left _ hu), hva'old u hu]
            have hcin : c ∈ visited ++ [c] := List.mem_append_right _ (by simp)
            refine ⟨va2, hva2old,
              fun u hu => hvis2 u (List.mem_append_left _ hu), ?_, hcl2⟩
            intro p hp
            rcases List.mem_cons.mp hp with hph | hpr
            · subst hph
              exact Or.inr ⟨hvis2 c hcin, by rw [heq2 c hcin, hva'c]⟩
            · exact hq2 p (List.mem_append_left _ hpr)
          · -- visit without expanding
            simp only [hexp, if_false] at hrun
            have hGnew : ∀ u ∈ visited ++ [c], expandOk u = true →
                ∀ w ∈ adj u,
                (w ∈ visited ++ [c] ∧ va' w ≤ va' u + 1) ∨
                (∃ h2, (w, h2) ∈ rest ∧ h2 ≤ va' u + 1) ∨
                maxHops < va' u + 1 := by
              intro u hu hok w hw
              rcases hmemnew u hu with hu2 | hu2
              · rw [hva'old u hu2]
                rcases hG u hu2 hok w hw with ⟨h1a, h1b⟩ | ⟨h2, hmem, hle⟩ | h3
                · exact Or.inl ⟨List.mem_append_left _ h1a,
                    (hva'old w h1a) ▸ h1b⟩
                · rcases List.mem_cons.mp hmem with heq | hmem2
                  · obtain ⟨hw2, hh2⟩ := Prod.mk.injEq .. ▸ heq
                    refine Or.inl ⟨?_, ?_⟩
                    · rw [hw2]; exact List.mem_append_right _ (by simp)
                    · rw [hw2, hva'c, ← hh2]; exact hle
                  · exact Or.inr (Or.inl ⟨h2, hmem2, hle⟩)
                · exact Or.inr (Or.inr h3)
              · rw [hu2] at hok
                exact absurd hok (by simp [hexp])
            obtain ⟨va2, heq2, hvis2, hq2, hcl2⟩ :=
              ih rest (visited ++ [c]) h va' out hrestL hVnew hGnew hrun
            have hva2old : ∀ u ∈ visited, va2 u = va u := by
              intro u hu
              rw [heq2 u (List.mem_append_left _ hu), hva'old u hu]
            have hcin : c ∈ visited ++ [c] := List.mem_append_right _ (by simp)
            refine ⟨va2, hva2old,
              fun u hu => hvis2 u (List.mem_append_left _ hu), ?_, hcl2⟩
            intro p hp
            rcases List.mem_cons.mp hp with hph | hpr
            · subst hph
              exact Or.inr ⟨hvis2 c hcin, by rw [heq2 c hcin, hva'c]⟩
            · exact hq2 p hpr

/-- Completeness of the pruned BFS: any node reachable through expandable
nodes in at most `maxHops` steps is visited. -/
theorem bfsAux_complete (adj : String → List String) (expandOk : String → Bool)
    (maxHops fuel : Nat) (s : String) (out : List String)
    (hrun : bfsAux adj expandOk maxHops fuel [(s, 0)] [] = some out)
    {v : String} {n : Nat}
    (hreach : ReachesWithin adj expandOk s v n) (hn : n ≤ maxHops) :
    v ∈ out := by
  obtain ⟨va2, _, _, hq2, hcl2⟩ :=
    bfsAux_closure adj expandOk maxHops fuel [(s, 0)] [] 0 (fun _ => 0) out
      ⟨[(s, 0)], [], by simp, by simp, by simp⟩ (by simp) (by simp) hrun
  have hs : s ∈ out ∧ va2 s ≤ 0 := by
    rcases hq2 (s, 0) (by simp) with h1 | h2
    · exact absurd h1 (by omega)
    · exact h2
  suffices hsuff : n ≤ maxHops → v ∈ out ∧ va2 v ≤ n from (hsuff hn).1
  clear hn
  induction hreach with
  | refl => intro _; exact hs
  | @step u w n hr hok hw ih2 =>
    intro hn1
    obtain ⟨hu, hva⟩ := ih2 (by omega)
    rcases hcl2 u hu hok w hw with ⟨h1a, h1b⟩ | h3
    · exact ⟨h1a, by omega⟩
    · exact absurd h3 (by omega)

/-- Completeness of `get_forward_nodes`: a node other than the source that
the pruned BFS can reach in at most `maxHops` steps and whose timestamp lies
in `(source.timestamp, source.timestamp + window]` appears in the result,
provided the candidate count does not exceed `max_results`. -/
theorem get_forward_nodes_complete (g : TemporalGraph) (id v : String)
    (w : Int) (mh mr : Nat) (src vn : TemporalNode) (n : Nat)
    (res : List String)
    (hsrc : lookupNode g id = some src)
    (hv : lookupNode g v = some vn)
    (hreach : ReachesWithin (forwardAdj g)
      (forwardExpandOk g (src.timestamp + w)) id v n)
    (hn : n ≤ mh)
    (hne : v ≠ id)
    (hlow : src.timestamp < vn.timestamp)
    (hhigh : vn.timestamp ≤ src.timestamp + w)
    (hcap : ((forwardCandidates g id w mh).getD []).length ≤ mr)
    (hres : get_forward_nodes g id w mh mr = some res) :
    v ∈ res := by
  unfold get_forward_nodes at hres
  obtain ⟨cand, hcand, hres2⟩ := Option.map_eq_some'.mp hres
  have hcap2 : cand.length ≤ mr := by rw [hcand] at hcap; simpa using hcap
  have hcand' := hcand
  unfold forwardCandidates at hcand'
  rw [hsrc] at hcand'
  obtain ⟨reach, hreach2, hcand2⟩ := Option.map_eq_some'.mp hcand'
  have hvreach : v ∈ reach :=
    bfsAux_complete (forwardAdj g) (forwardExpandOk g (src.timestamp + w))
      mh (graphFuel g) id reach hreach2 hreach hn
  have hvcand : v ∈ cand := by
    rw [← hcand2]
    rw [List.mem_filter]
    refine ⟨hvreach, ?_⟩
    rw [hv]
    simp [hne, hlow, hhigh]
  have hlen : (stableSort (fun a b => decide (tsOf g a ≤ tsOf g b))
      cand).length ≤ mr := by
    rw [length_stableSort]; exact hcap2
  rw [← hres2, List.take_of_length_le hlen]
  exact (mem_stableSort _ v cand).mpr hvcand

/-- Completeness of `get_backward_nodes`, symmetric to the forward case. -/
theorem get_backward_nodes_complete (g : TemporalGraph) (id v : String)
    (w : Int) (mh mr : Nat) (tgt vn : TemporalNode) (n : Nat)
    (res : List String)
    (htgt : lookupNode g id = some tgt)
    (hv : lookupNode g v = some vn)
    (hreach : ReachesWithin (backwardAdj g)
      (backwardExpandOk g (tgt.timestamp - w)) id v n)
    (hn : n ≤ mh)
    (hne : v ≠ id)
    (hlow : tgt.timestamp - w ≤ vn.timestamp)
    (hhigh : vn.timestamp < tgt.timestamp)
    (hcap : ((backwardCandidates g id w mh).getD []).length ≤ mr)
    (hres : get_backward_nodes g id w mh mr = some res) :
    v ∈ res := by
  unfold get_backward_nodes at hres
  obtain ⟨cand, hcand, hres2⟩ := Option.map_eq_some'.mp hres
  have hcap2 : cand.length ≤ mr := by rw [hcand] at hcap; simpa using hcap
  have hcand' := hcand
  unfold backwardCandidates at hcand'
  rw [htgt] at hcand'
  obtain ⟨reach, hreach2, hcand2⟩ := Option.map_eq_some'.mp hcand'
  have hvreach : v ∈ reach :=
    bfsAux_complete (backwardAdj g) (backwardExpandOk g (tgt.timestamp - w))
      mh (graphFuel g) id reach hreach2 hreach hn
  have hvcand : v ∈ cand := by
    rw [← hcand2]
    rw [List.mem_filter]
    refine ⟨hvreach, ?_⟩
    rw [hv]
    simp [hne, hlow, hhigh]
  have hlen : (stableSort (fun a b => decide (tsOf g b ≤ tsOf g a))
      cand).length ≤ mr := by
    rw [length_stableSort]; exact hcap2
  rw [← hres2, List.take_of_length_le hlen]
  exact (mem_stableSort _ v cand).mpr hvcand

/-- Soundness of the time-window filter of `get_forward_nodes`: every
returned id differs from the source, resolves in the node map, and its
timestamp lies in `(source.timestamp, source.timestamp + window]` — in
particular an id whose timestamp is strictly beyond the window never
appears. -/
theorem get_forward_nodes_sound (g : TemporalGraph) (id v : String)
    (w : Int) (mh mr : Nat) (src : TemporalNode) (res : List String)
    (hsrc : lookupNode g id = some src)
    (hres : get_forward_nodes g id w mh mr = some res)
    (hvmem : v ∈ res) :
    v ≠ id ∧ ∃ vn, lookupNode g v = some vn ∧
      src.timestamp < vn.timestamp ∧ vn.timestamp ≤ src.timestamp + w := by
  unfold get_forward_nodes at hres
  obtain ⟨cand, hcand, hres2⟩ := Option.map_eq_some'.mp hres
  unfold forwardCandidates at hcand
  rw [hsrc] at hcand
  obtain ⟨reach, _, hcand2⟩ := Option.map_eq_some'.mp hcand
  rw [← hres2] at hvmem
  have hvs := List.mem_of_mem_take hvmem
  have hvcand : v ∈ cand := (mem_stableSort _ v cand).mp hvs
  rw [← hcand2, List.mem_filter] at hvcand
  obtain ⟨_, hpred⟩ := hvcand
  cases hvn : lookupNode g v with
  | none => rw [hvn] at hpred; simp at hpred
  | some vn =>
    rw [hvn] at hpred
    simp only [Bool.and_eq_true, bne_iff_ne, decide_eq_true_eq] at hpred
    exact ⟨hpred.1, vn, rfl, hpred.2.1, hpred.2.2⟩

/-- One BFS iteration on a fresh node within the hop budget that passes the
expansion test: the node is marked visited and its not-yet-visited neighbours
are enqueued one hop deeper. -/
theorem bfsAux_step_expand (adj : String → List String)
    (expandOk : String → Bool) (maxHops fuel : Nat) (c : String) (h : Nat)
    (rest : List (String × Nat)) (visited : List String)
    (hcv : visited.contains c = false) (hh : ¬ maxHops < h)
    (hok : expandOk c = true) :
    bfsAux adj expandOk maxHops (fuel + 1) ((c, h) :: rest) visited =
      bfsAux adj expandOk maxHops fuel
        (rest ++ ((adj c).filter
          (fun w => !(visited ++ [c]).contains w)).map (fun w => (w, h + 1)))
        (visited ++ [c]) := by
  have hcnot : c ∉ visited := by
    intro hm
    have hcc : visited.contains c = true := by simpa using hm
    rw [hcv] at hcc
    cases hcc
  rw [bfsAux, if_neg (by simp [hcnot, hh])]
  simp [hok]

/-- One BFS iteration on a fresh node within the hop budget that fails the
expansion test: the node is marked visited but nothing is enqueued. -/
theorem bfsAux_step_noexpand (adj : String → List String)
    (expandOk : String → Bool) (maxHops fuel : Nat) (c : String) (h : Nat)
    (rest : List (String × Nat)) (visited : List String)
    (hcv : visited.contains c = false) (hh : ¬ maxHops < h)
    (hok : expandOk c = false) :
    bfsAux adj expandOk maxHops (fuel + 1) ((c, h) :: rest) visited =
      bfsAux adj expandOk maxHops fuel rest (visited ++ [c]) := by
  have hcnot : c ∉ visited := by
    intro hm
    have hcc : visited.contains c = true := by simpa using hm
    rw [hcv] at hcc
    cases hcc
  rw [bfsAux, if_neg (by simp [hcnot, hh])]
  simp [hok]

/-- The forward expansion test at a node present in the node map is exactly
the comparison of its timestamp with the window end. -/
theorem forwardExpandOk_eq (g : TemporalGraph) (endTime : Int) (c : String)
    (cn : TemporalNode) (hc : lookupNode g c = some cn) :
    forwardExpandOk g endTime c = decide (cn.timestamp ≤ endTime) := by
  unfold forwardExpandOk
  rw [hc]

/-! ### Carryover boundedness lemmas (claim C2) -/

theorem length_pyTake {α : Type} (n : Nat) (l : List α) :
    (pyTake n l).length ≤ n := by
  simp [pyTake]

theorem length_pyTakeLast {α : Type} (n : Nat) (l : List α) (hn : 0 < n) :
    (pyTakeLast n l).length ≤ n := by
  unfold pyTakeLast
  rw [if_neg (by omega)]
  rw [List.length_drop]
  omega

theorem length_foldl_step {β γ : Type}
    (step : List (String × β) → γ → List (String × β))
    (hstep : ∀ m x, (step m x).length ≤ m.length + 1) :
    ∀ (l : List γ) (m : List (String × β)),
      (l.foldl step m).length ≤ m.length + l.length := by
  intro l
  induction l with
  | nil => intro m; simp
  | cons x xs ih =>
    intro m
    have h1 : ((x :: xs).foldl step m).length =
        (xs.foldl step (step m x)).length := rfl
    have h2 := ih (step m x)
    have h3 := hstep m x
    rw [h1]
    simp only [List.length_cons]
    omega

/-- The merged-and-trimmed carryover respects every configured cap, and
passes `open_questions` through unchanged. -/
theorem extractCarryover_bounds (cfg : MarkovianConfig) (chunk : ChunkResult)
    (prev : TemporalCarryover) (hch : 0 < cfg.maxCarryoverChains) :
    (extractCarryover cfg chunk prev).criticalEvents.length ≤
      cfg.maxCarryoverEvents ∧
    (extractCarryover cfg chunk prev).keyEntities.length ≤
      cfg.maxCarryoverEntities ∧
    (extractCarryover cfg chunk prev).causalChains.length ≤
      cfg.maxCarryoverChains ∧
    (extractCarryover cfg chunk prev).attentionScores.length ≤
      10 + cfg.maxCarryoverEvents ∧
    (extractCarryover cfg chunk prev).openQuestions = prev.openQuestions := by
  refine ⟨length_pyTake _ _, length_pyTake _ _,
    length_pyTakeLast _ _ hch, ?_, rfl⟩
  have h1 := length_foldl_step
    (fun m (e : CriticalEvent) => dictInsert m e.docId (1 : ℚ))
    (fun m e => length_dictInsert m e.docId 1)
    (pyTake cfg.maxCarryoverEvents
      (stableSort (fun a b => decide (b.importance ≤ a.importance))
        (prev.criticalEvents ++ chunk.criticalEvents)))
    ((pyTakeLast 10 chunk.docIds).foldl
      (fun m d => dictInsert m d ((4 : ℚ) / 5)) [])
  have h2 := length_foldl_step
    (fun m (d : String) => dictInsert m d ((4 : ℚ) / 5))
    (fun m d => length_dictInsert m d ((4 : ℚ) / 5))
    (pyTakeLast 10 chunk.docIds) []
  have h3 := length_pyTakeLast 10 chunk.docIds (by omega)
  have h4 := length_pyTake cfg.maxCarryoverEvents
    (stableSort (fun a b => decide (b.importance ≤ a.importance))
      (prev.criticalEvents ++ chunk.criticalEvents))
  show ((pyTake cfg.maxCarryoverEvents
      (stableSort (fun a b => decide (b.importance ≤ a.importance))
        (prev.criticalEvents ++ chunk.criticalEvents))).foldl
    (fun m e => dictInsert m e.docId (1 : ℚ))
    ((pyTakeLast 10 chunk.docIds).foldl
      (fun m d => dictInsert m d ((4 : ℚ) / 5)) [])).length ≤
    10 + cfg.maxCarryoverEvents
  simp only [List.length_nil] at h2
  omega

/-- Along any run of the analysis loop, every produced carryover respects the
caps and carries `open_questions` through from the initial state. -/
theorem carryStates_bounds (cfg : MarkovianConfig)
    (hch : 0 < cfg.maxCarryoverChains) :
    ∀ (chunks : List ChunkResult) (st : TemporalCarryover) (totalDocs : Nat)
      (s : TemporalCarryover), s ∈ carryStates cfg st totalDocs chunks →
      s.criticalEvents.length ≤ cfg.maxCarryoverEvents ∧
      s.keyEntities.length ≤ cfg.maxCarryoverEntities ∧
      s.causalChains.length ≤ cfg.maxCarryoverChains ∧
      s.attentionScores.length ≤ 10 + cfg.maxCarryoverEvents ∧
      s.openQuestions = st.openQuestions := by
  intro chunks
  induction chunks with
  | nil => intro st totalDocs s hs; exact absurd hs (List.not_mem_nil _)
  | cons chunk rest ih =>
    intro st totalDocs s hs
    have hex := extractCarryover_bounds cfg chunk st hch
    rcases List.mem_cons.mp hs with hs | hs
    · subst hs
      exact ⟨hex.1, hex.2.1, hex.2.2.1, hex.2.2.2.1, hex.2.2.2.2⟩
    · have hrec := ih _ _ s hs
      refine ⟨hrec.1, hrec.2.1, hrec.2.2.1, hrec.2.2.2.1, ?_⟩
      rw [hrec.2.2.2.2]
      exact hex.2.2.2.2

/-! ### TF-IDF nonnegativity and the cosine range (claim C9) -/

theorem firstDedup_nodup (l : List String) : (firstDedup l).Nodup := by
  induction l with
  | nil => exact List.nodup_nil
  | cons x xs ih =>
    rw [firstDedup, List.nodup_cons]
    constructor
    · intro hmem
      have := (List.mem_filter.mp hmem).2
      simp at this
    · exact List.Nodup.filter _ ih

theorem dfGet_dictInsert (m : List (String × Nat)) (k t : String) (v : Nat) :
    dfGet (dictInsert m k v) t = if t = k then v else dfGet m t := by
  unfold dfGet
  rw [dictFind?_dictInsert]
  by_cases h : t = k
  · simp [h]
  · simp [h]

theorem dfGet_foldl_tokens :
    ∀ (toks : List String) (m : List (String × Nat)) (t : String),
      toks.Nodup →
      dfGet (toks.foldl (fun m t => dictInsert m t (dfGet m t + 1)) m) t =
        dfGet m t + (if t ∈ toks then 1 else 0) := by
  intro toks
  induction toks with
  | nil => intro m t _; simp
  | cons t0 rest ih =>
    intro m t hnd
    obtain ⟨ht0, hrest⟩ := List.nodup_cons.mp hnd
    have hfold : ((t0 :: rest).foldl
        (fun m t => dictInsert m t (dfGet m t + 1)) m) =
        rest.foldl (fun m t => dictInsert m t (dfGet m t + 1))
          (dictInsert m t0 (dfGet m t0 + 1)) := rfl
    rw [hfold, ih _ t hrest, dfGet_dictInsert]
    by_cases h : t = t0
    · subst h
      have : t ∉ rest := ht0
      simp [this]
    · simp [h]

theorem dfGet_le_docCount_aux :
    ∀ (texts : List String) (st : SemanticSimilarity),
      (∀ t, dfGet st.termDocumentFreq t ≤ st.documentCount) →
      ∀ t, dfGet ((texts.foldl add_document st).termDocumentFreq) t ≤
        (texts.foldl add_document st).documentCount := by
  intro texts
  induction texts with
  | nil => intro st h t; exact h t
  | cons text rest ih =>
    intro st h t
    have hstep : ∀ t2, dfGet ((add_document st text).termDocumentFreq) t2 ≤
        (add_document st text).documentCount := by
      intro t2
      unfold add_document
      simp only
      rw [dfGet_foldl_tokens _ _ _ (firstDedup_nodup _)]
      have := h t2
      by_cases hmem : t2 ∈ firstDedup (tokenize text)
      · simp [hmem]; omega
      · simp [hmem]; omega
    exact ih (add_document st text) hstep t

/-- A term's document frequency never exceeds the document count, in every
corpus state reachable by `add_document` calls. -/
theorem dfGet_le_docCount (texts : List String) (t : String) :
    dfGet (semStateOf texts).termDocumentFreq t ≤
      (semStateOf texts).documentCount := by
  unfold semStateOf
  exact dfGet_le_docCount_aux texts {} (fun _ => by simp [dfGet, dictFind?]) t

/-- IDF is nonnegative on every reachable corpus state. -/
theorem compute_idf_nonneg (texts : List String) (t : String) :
    0 ≤ compute_idf (semStateOf texts) t := by
  unfold compute_idf
  by_cases h0 : (semStateOf texts).documentCount = 0
  · simp [h0]
  · rw [if_neg h0]
    by_cases hdf : dfGet (semStateOf texts).termDocumentFreq t = 0
    · simp [hdf]
    · rw [if_neg hdf]
      apply Real.log_nonneg
      have hle := dfGet_le_docCount texts t
      have hpos : 0 < (dfGet (semStateOf texts).termDocumentFreq t : ℝ) := by
        have : 0 < dfGet (semStateOf texts).termDocumentFreq t := by omega
        exact_mod_cast this
      rw [le_div_iff hpos]
      have : (dfGet (semStateOf texts).termDocumentFreq t : ℝ) ≤
          ((semStateOf texts).documentCount : ℝ) := by exact_mod_cast hle
      linarith

/-- Term frequencies are nonnegative. -/
theorem compute_tf_nonneg (tokens : List String) :
    ∀ p ∈ compute_tf tokens, 0 ≤ p.2 := by
  intro p hp
  unfold compute_tf at hp
  by_cases h : tokens.length = 0
  · rw [if_pos h] at hp; cases hp
  · rw [if_neg h] at hp
    obtain ⟨t, _, rfl⟩ := List.mem_map.mp hp
    have h1 : (0 : ℚ) ≤ (tokens.count t : ℚ) := by positivity
    have h2 : (0 : ℚ) ≤ (tokens.length : ℚ) := by positivity
    exact div_nonneg h1 h2

/-- Every entry of a TF-IDF vector over a reachable corpus state is
nonnegative (the claim's reason: document frequency never exceeds the
document count, so IDF is nonnegative). -/
theorem compute_tfidf_vector_nonneg (texts : List String) (text : String) :
    ∀ p ∈ compute_tfidf_vector (semStateOf texts) text, 0 ≤ p.2 := by
  intro p hp
  unfold compute_tfidf_vector at hp
  obtain ⟨q, hq, rfl⟩ := List.mem_map.mp hp
  have htf : (0 : ℝ) ≤ (q.2 : ℝ) := by
    exact_mod_cast compute_tf_nonneg (tokenize text) q hq
  exact mul_nonneg htf (compute_idf_nonneg texts q.1)

/-- A TF-IDF vector never repeats a term. -/
theorem compute_tfidf_vector_keys_nodup (st : SemanticSimilarity)
    (text : String) :
    ((compute_tfidf_vector st text).map Prod.fst).Nodup := by
  unfold compute_tfidf_vector compute_tf
  by_cases h : (tokenize text).length = 0
  · simp [h]
  · rw [if_neg h]
    rw [List.map_map, List.map_map]
    have : ((Prod.fst ∘ fun p : String × ℚ =>
        (p.1, (p.2 : ℝ) * compute_idf st p.1)) ∘ fun t =>
        (t, ((tokenize text).count t : ℚ) /
          ((tokenize text).length : ℚ))) = fun t => t := rfl
    rw [this]
    simpa using firstDedup_nodup (tokenize text)

theorem dotCommon_eq (v1 v2 : List (String × ℝ)) :
    dotCommon v1 v2 = (v1.map (fun p => p.2 * getVal v2 p.1)).sum := by
  unfold dotCommon
  congr 1
  apply List.map_congr_left
  intro p _
  unfold getVal
  cases v2.find? (fun q => q.1 == p.1) with
  | none => simp
  | some q => rfl

theorem getVal_nonneg (v2 : List (String × ℝ)) (k : String)
    (h2 : ∀ p ∈ v2, 0 ≤ p.2) : 0 ≤ getVal v2 k := by
  unfold getVal
  cases hf : v2.find? (fun q => q.1 == k) with
  | none => exact le_refl 0
  | some q => exact h2 q (List.mem_of_find?_eq_some hf)

theorem sum_mul_self_nonneg (l : List ℝ) :
    0 ≤ (l.map (fun x => x * x)).sum := by
  apply List.sum_nonneg
  intro x hx
  obtain ⟨y, _, rfl⟩ := List.mem_map.mp hx
  exact mul_self_nonneg y

theorem sumSq_nonneg (v : List (String × ℝ)) : 0 ≤ sumSq v := by
  unfold sumSq
  apply List.sum_nonneg
  intro x hx
  obtain ⟨p, _, rfl⟩ := List.mem_map.mp hx
  exact mul_self_nonneg p.2

theorem le_of_sq_le_sq (x y : ℝ) (h2 : x ^ 2 ≤ y ^ 2) (hy : 0 ≤ y) :
    x ≤ y := by
  calc x ≤ |x| := le_abs_self x
    _ = Real.sqrt (x ^ 2) := (Real.sqrt_sq_eq_abs x).symm
    _ ≤ Real.sqrt (y ^ 2) := Real.sqrt_le_sqrt h2
    _ = |y| := Real.sqrt_sq_eq_abs y
    _ = y := abs_of_nonneg hy

theorem two_mul_cross_le (a b s A B : ℝ) (hs : s ^ 2 ≤ A * B) (hA : 0 ≤ A)
    (hB : 0 ≤ B) : 2 * a * b * s ≤ a ^ 2 * B + A * b ^ 2 := by
  apply le_of_sq_le_sq
  · nlinarith [sq_nonneg (a ^ 2 * B - A * b ^ 2), sq_nonneg (a * b),
      mul_nonneg (mul_nonneg (sq_nonneg a) (sq_nonneg b))
        (sub_nonneg.mpr hs)]
  · exact add_nonneg (mul_nonneg (sq_nonneg a) hB)
      (mul_nonneg hA (sq_nonneg b))

/-- Cauchy–Schwarz for paired lists, squared form. -/
theorem list_cs_sq (l : List (ℝ × ℝ)) :
    ((l.map (fun p => p.1 * p.2)).sum) ^ 2 ≤
      ((l.map (fun p => p.1 * p.1)).sum) *
      ((l.map (fun p => p.2 * p.2)).sum) := by
  induction l with
  | nil => simp
  | cons p t ih =>
    have hA : 0 ≤ (t.map (fun p => p.1 * p.1)).sum := by
      apply List.sum_nonneg
      intro x hx
      obtain ⟨q, _, rfl⟩ := List.mem_map.mp hx
      exact mul_self_nonneg q.1
    have hB : 0 ≤ (t.map (fun p => p.2 * p.2)).sum := by
      apply List.sum_nonneg
      intro x hx
      obtain ⟨q, _, rfl⟩ := List.mem_map.mp hx
      exact mul_self_nonneg q.2
    simp only [List.map_cons, List.sum_cons]
    have hm := two_mul_cross_le p.1 p.2 ((t.map (fun p => p.1 * p.2)).sum)
      ((t.map (fun p => p.1 * p.1)).sum) ((t.map (fun p => p.2 * p.2)).sum)
      ih hA hB
    nlinarith [ih, hm]

/-- Cauchy–Schwarz for paired lists with square roots. -/
theorem list_cs (l : List (ℝ × ℝ)) :
    (l.map (fun p => p.1 * p.2)).sum ≤
      Real.sqrt ((l.map (fun p => p.1 * p.1)).sum) *
      Real.sqrt ((l.map (fun p => p.2 * p.2)).sum) := by
  have h1 : (l.map (fun p => p.1 * p.2)).sum ≤
      |(l.map (fun p => p.1 * p.2)).sum| := le_abs_self _
  have h2 : |(l.map (fun p => p.1 * p.2)).sum| =
      Real.sqrt (((l.map (fun p => p.1 * p.2)).sum) ^ 2) :=
    (Real.sqrt_sq_eq_abs _).symm
  have hA : 0 ≤ (l.map (fun p => p.1 * p.1)).sum := by
    apply List.sum_nonneg
    intro x hx
    obtain ⟨q, _, rfl⟩ := List.mem_map.mp hx
    exact mul_self_nonneg q.1
  have h3 : Real.sqrt (((l.map (fun p => p.1 * p.2)).sum) ^ 2) ≤
      Real.sqrt ((l.map (fun p => p.1 * p.1)).sum *
        (l.map (fun p => p.2 * p.2)).sum) :=
    Real.sqrt_le_sqrt (list_cs_sq l)
  have h4 : Real.sqrt ((l.map (fun p => p.1 * p.1)).sum *
      (l.map (fun p => p.2 * p.2)).sum) =
      Real.sqrt ((l.map (fun p => p.1 * p.1)).sum) *
      Real.sqrt ((l.map (fun p => p.2 * p.2)).sum) := Real.sqrt_mul hA _
  linarith

/-- A witnessing decomposition for a successful `find?`. -/
theorem find?_decomp {α : Type} (pred : α → Bool) :
    ∀ (l : List α) (a : α), l.find? pred = some a →
      ∃ l1 l2, l = l1 ++ a :: l2 ∧ ∀ x ∈ l1, pred x = false := by
  intro l
  induction l with
  | nil => intro a h; cases h
  | cons x xs ih =>
    intro a h
    cases hx : pred x with
    | true =>
      simp only [List.find?_cons, hx] at h
      cases h
      exact ⟨[], xs, rfl, by simp⟩
    | false =>
      simp only [List.find?_cons, hx] at h
      obtain ⟨l1, l2, rfl, hl1⟩ := ih a h
      refine ⟨x :: l1, l2, rfl, ?_⟩
      intro y hy
      rcases List.mem_cons.mp hy with rfl | hy
      · exact hx
      · exact hl1 y hy

theorem getVal_skip (l1 l2 : List (String × ℝ)) (q : String × ℝ) (k : String)
    (hq : (q.1 == k) = false) :
    getVal (l1 ++ q :: l2) k = getVal (l1 ++ l2) k := by
  unfold getVal
  rw [List.find?_append, List.find?_append]
  simp only [List.find?_cons, hq]

theorem sumSq_middle (l1 l2 : List (String × ℝ)) (q : String × ℝ) :
    sumSq (l1 ++ q :: l2) = sumSq (l1 ++ l2) + q.2 * q.2 := by
  unfold sumSq
  simp [List.sum_append]
  ring

/-- With distinct terms in the first vector, the squares of the values the
dot product reads from the second vector sum to at most the second vector's
squared norm: distinct terms read distinct entries. -/
theorem sum_getVal_sq_le :
    ∀ (v1 v2 : List (String × ℝ)), ((v1.map Prod.fst).Nodup) →
      (v1.map (fun p => getVal v2 p.1 * getVal v2 p.1)).sum ≤ sumSq v2 := by
  intro v1
  induction v1 with
  | nil => intro v2 _; simpa using sumSq_nonneg v2
  | cons p rest ih =>
    intro v2 hnd
    rw [List.map_cons, List.nodup_cons] at hnd
    obtain ⟨hp, hrest⟩ := hnd
    simp only [List.map_cons, List.sum_cons]
    cases hfind : v2.find? (fun q => q.1 == p.1) with
    | none =>
      have hz : getVal v2 p.1 = 0 := by unfold getVal; rw [hfind]
      rw [hz]
      have := ih v2 hrest
      linarith
    | some q =>
      obtain ⟨l1, l2, rfl, hl1⟩ := find?_decomp _ v2 q hfind
      have hqv : getVal (l1 ++ q :: l2) p.1 = q.2 := by
        unfold getVal
        rw [hfind]
      have hrw : (rest.map
          (fun r => getVal (l1 ++ q :: l2) r.1 * getVal (l1 ++ q :: l2) r.1))
          = rest.map
          (fun r => getVal (l1 ++ l2) r.1 * getVal (l1 ++ l2) r.1) := by
        apply List.map_congr_left
        intro r hr
        have hrk : (q.1 == r.1) = false := by
          have hq1 : q.1 = p.1 := by
            have := List.find?_some hfind
            simpa using this
          rw [hq1]
          simp only [beq_eq_false_iff_ne, ne_eq]
          intro hc
          exact hp (hc ▸ List.mem_map_of_mem Prod.fst hr)
        rw [getVal_skip l1 l2 q r.1 hrk]
      rw [hqv, hrw, sumSq_middle]
      have := ih (l1 ++ l2) hrest
      linarith

/-- Cosine similarity of vectors with nonnegative entries and distinct terms
in the first vector lies in `[0, 1]`. -/
theorem cosine_similarity_unit (v1 v2 : List (String × ℝ))
    (h1 : ∀ p ∈ v1, 0 ≤ p.2) (h2 : ∀ p ∈ v2, 0 ≤ p.2)
    (hk : (v1.map Prod.fst).Nodup) :
    0 ≤ cosine_similarity v1 v2 ∧ cosine_similarity v1 v2 ≤ 1 := by
  match v1, v2 with
  | [], v2 => exact ⟨le_refl 0, zero_le_one⟩
  | p :: t, [] => exact ⟨le_refl 0, zero_le_one⟩
  | p :: t, q :: s =>
    rw [cosine_similarity]
    by_cases hmag : Real.sqrt (sumSq (p :: t)) = 0 ∨
        Real.sqrt (sumSq (q :: s)) = 0
    · rw [if_pos hmag]
      exact ⟨le_refl 0, zero_le_one⟩
    · rw [if_neg hmag]
      push_neg at hmag
      have hm1 : 0 < Real.sqrt (sumSq (p :: t)) :=
        lt_of_le_of_ne (Real.sqrt_nonneg _) (Ne.symm hmag.1)
      have hm2 : 0 < Real.sqrt (sumSq (q :: s)) :=
        lt_of_le_of_ne (Real.sqrt_nonneg _) (Ne.symm hmag.2)
      have hdotnn : 0 ≤ dotCommon (p :: t) (q :: s) := by
        rw [dotCommon_eq]
        apply List.sum_nonneg
        intro x hx
        obtain ⟨r, hr, rfl⟩ := List.mem_map.mp hx
        exact mul_nonneg (h1 r hr) (getVal_nonneg _ _ h2)
      constructor
      · exact div_nonneg hdotnn (mul_nonneg hm1.le hm2.le)
      · rw [div_le_one (mul_pos hm1 hm2)]
        set pr := (p :: t).map
          (fun r => (r.2, getVal (q :: s) r.1)) with hpr
        have hmap1 : pr.map (fun r => r.1 * r.2) =
            (p :: t).map (fun r => r.2 * getVal (q :: s) r.1) := by
          rw [hpr, List.map_map]; rfl
        have hmap2 : pr.map (fun r => r.1 * r.1) =
            (p :: t).map (fun r => r.2 * r.2) := by
          rw [hpr, List.map_map]; rfl
        have hmap3 : pr.map (fun r => r.2 * r.2) =
            (p :: t).map
              (fun r => getVal (q :: s) r.1 * getVal (q :: s) r.1) := by
          rw [hpr, List.map_map]; rfl
        have hcs := list_cs pr
        rw [hmap1, hmap2, hmap3] at hcs
        have hdot : dotCommon (p :: t) (q :: s) =
            ((p :: t).map (fun r => r.2 * getVal (q :: s) r.1)).sum :=
          dotCommon_eq _ _
        have hsq1 : ((p :: t).map (fun r => r.2 * r.2)).sum =
            sumSq (p :: t) := rfl
        have hgv := sum_getVal_sq_le (p :: t) (q :: s) hk
        have hmono : Real.sqrt (((p :: t).map
            (fun r => getVal (q :: s) r.1 * getVal (q :: s) r.1)).sum) ≤
            Real.sqrt (sumSq (q :: s)) := Real.sqrt_le_sqrt hgv
        rw [hdot]
        calc ((p :: t).map (fun r => r.2 * getVal (q :: s) r.1)).sum
            ≤ Real.sqrt (((p :: t).map (fun r => r.2 * r.2)).sum) *
              Real.sqrt (((p :: t).map
                (fun r => getVal (q :: s) r.1 * getVal (q :: s) r.1)).sum) :=
              hcs
          _ ≤ Real.sqrt (((p :: t).map (fun r => r.2 * r.2)).sum) *
              Real.sqrt (sumSq (q :: s)) := by
              apply mul_le_mul_of_nonneg_left hmono (Real.sqrt_nonneg _)
          _ = Real.sqrt (sumSq (p :: t)) * Real.sqrt (sumSq (q :: s)) := by
              rw [hsq1]

/-! ### Further structural lemmas for the claims -/

/-- Re-assigning an existing dict key keeps the dict size. -/
theorem length_dictInsert_mem {α : Type} :
    ∀ (m : List (String × α)) (k : String) (v : α),
      m.any (fun p => p.1 == k) = true →
      (dictInsert m k v).length = m.length := by
  intro m
  induction m with
  | nil => intro k v h; cases h
  | cons p ps ih =>
    intro k v h
    by_cases hpk : (p.1 == k) = true
    · simp [dictInsert, hpk]
    · have hrest : ps.any (fun p => p.1 == k) = true := by
        rcases List.any_eq_true.mp h with ⟨x, hx, hpx⟩
        rcases List.mem_cons.mp hx with rfl | hx
        · exact absurd hpx hpk
        · exact List.any_eq_true.mpr ⟨x, hx, hpx⟩
      simp only [dictInsert, hpk, if_false, Bool.false_eq_true,
        List.length_cons]
      rw [ih k v hrest]

/-- The ids returned by `get_forward_nodes` are pairwise distinct (each node
is visited at most once and the filter/sort/truncation add no duplicates). -/
theorem get_forward_nodes_nodup (g : TemporalGraph) (nodeId : String)
    (timeWindowDays : Int) (maxHops maxResults : Nat) (res : List String)
    (hres : get_forward_nodes g nodeId timeWindowDays maxHops maxResults =
      some res) : res.Nodup := by
  unfold get_forward_nodes at hres
  obtain ⟨cand, hcand, hres2⟩ := Option.map_eq_some'.mp hres
  unfold forwardCandidates at hcand
  cases hlook : lookupNode g nodeId with
  | none =>
    rw [hlook] at hcand
    cases hcand
    have hres3 : res = [] := by rw [← hres2]; simp [stableSort]
    rw [hres3]
    exact List.nodup_nil
  | some src =>
    rw [hlook] at hcand
    obtain ⟨reach, hreach, hcand2⟩ := Option.map_eq_some'.mp hcand
    have hreachnd : reach.Nodup :=
      bfsAux_nodup _ _ maxHops (graphFuel g) [(nodeId, 0)] [] reach
        List.nodup_nil hreach
    have hcandnd : cand.Nodup := by
      rw [← hcand2]
      exact hreachnd.filter _
    have hsortnd :
        (stableSort (fun a b => decide (tsOf g a ≤ tsOf g b)) cand).Nodup :=
      ((stableSort_perm _ cand).nodup_iff).mpr hcandnd
    rw [← hres2]
    exact hsortnd.sublist (List.take_sublist _ _)

/-- The function `_identify_causal_relationships` always finishes and
produces, in order,
one `(doc.id, target, "sequential")` triple per in-chunk document and
forward-reachable target in the chunk. -/
theorem identifyCausalRelationships_eq (g : TemporalGraph)
    (docs : List NodeData) :
    identifyCausalRelationships g docs = some (docs.flatMap (fun d =>
      (((get_forward_nodes g d.id 30 5 50).getD []).filter
        (fun t => docs.any (fun x => x.id == t))).map
        (fun t => (d.id, t, "sequential")))) := by
  unfold identifyCausalRelationships
  have haux : ∀ (ds : List NodeData) (l : List (String × String × String)),
      ds.foldl
        (fun acc doc => acc.bind (fun l =>
          (get_forward_nodes g doc.id 30 5 50).map (fun fwd =>
            l ++ (fwd.filter (fun t => docs.any (fun d => d.id == t))).map
              (fun t => (doc.id, t, causalRelType g doc.id t)))))
        (some l) =
      some (l ++ ds.flatMap (fun d =>
        (((get_forward_nodes g d.id 30 5 50).getD []).filter
          (fun t => docs.any (fun x => x.id == t))).map
          (fun t => (d.id, t, "sequential")))) := by
    intro ds
    induction ds with
    | nil => intro l; simp
    | cons d rest ih =>
      intro l
      obtain ⟨fwd, hfwd⟩ := Option.isSome_iff_exists.mp
        (get_forward_nodes_isSome g d.id 30 5 50)
      have hstep : ((some l).bind (fun l =>
          (get_forward_nodes g d.id 30 5 50).map (fun fwd =>
            l ++ (fwd.filter (fun t => docs.any (fun d => d.id == t))).map
              (fun t => (d.id, t, causalRelType g d.id t))))) =
          some (l ++ (fwd.filter
            (fun t => docs.any (fun x => x.id == t))).map
            (fun t => (d.id, t, "sequential"))) := by
        rw [hfwd]
        rfl
      rw [List.foldl_cons, hstep, ih]
      congr 1
      rw [List.flatMap_cons, hfwd]
      simp [List.append_assoc]
  have := haux docs []
  simpa using this

theorem countOcc_append {α : Type} [DecidableEq α] (a : α) (l1 l2 : List α) :
    countOcc a (l1 ++ l2) = countOcc a l1 + countOcc a l2 :=
  List.countP_append _ _ _

theorem countOcc_eq_zero {α : Type} [DecidableEq α] (a : α) (l : List α)
    (h : a ∉ l) : countOcc a l = 0 := by
  unfold countOcc
  rw [List.countP_eq_zero]
  intro x hx
  simp only [decide_eq_true_eq]
  intro hc
  exact h (hc ▸ hx)

theorem countOcc_eq_one {α : Type} [DecidableEq α] (a : α) :
    ∀ (l : List α), l.Nodup → a ∈ l → countOcc a l = 1 := by
  intro l
  induction l with
  | nil => intro _ h; exact absurd h (List.not_mem_nil _)
  | cons x rest ih =>
    intro hnd hmem
    obtain ⟨hx, hrest⟩ := List.nodup_cons.mp hnd
    unfold countOcc
    rw [List.countP_cons]
    rcases List.mem_cons.mp hmem with rfl | hmem2
    · have hz : countOcc a rest = 0 := countOcc_eq_zero a rest hx
      unfold countOcc at hz
      rw [hz]
      simp
    · have ho := ih hrest hmem2
      unfold countOcc at ho
      rw [ho]
      have hne : ¬ x = a := fun hc => hx (hc ▸ hmem2)
      simp [hne]

theorem countOcc_map_triple (fromId : String) (t : String) :
    ∀ (l : List String),
      countOcc (fromId, t, "sequential")
        (l.map (fun x => (fromId, x, "sequential"))) = countOcc t l := by
  intro l
  induction l with
  | nil => rfl
  | cons x rest ih =>
    unfold countOcc at ih ⊢
    rw [List.map_cons, List.countP_cons, List.countP_cons, ih]
    by_cases h : x = t
    · simp [h]
    · have h2 : ¬ (fromId, x, ("sequential" : String)) =
          (fromId, t, "sequential") := by
        intro hc
        exact h (congrArg (fun r : String × String × String => r.2.1) hc)
      simp [h, h2]

/-- Count of a fixed `(from, to, type)` triple in a flatMap block whose
source id differs: zero. -/
theorem count_block_ne (g : TemporalGraph) (docs : List NodeData)
    (d2 : NodeData) (fromId t : String) (hne : d2.id ≠ fromId) :
    countOcc (fromId, t, "sequential")
      ((((get_forward_nodes g d2.id 30 5 50).getD []).filter
        (fun x => docs.any (fun y => y.id == x))).map
        (fun x => (d2.id, x, "sequential"))) = 0 := by
  apply countOcc_eq_zero
  intro hmem
  obtain ⟨x, _, hx⟩ := List.mem_map.mp hmem
  exact hne (congrArg Prod.fst hx)

/-- Count of a fixed triple over blocks none of which carries its source id:
zero. -/
theorem count_flatMap_ne (g : TemporalGraph) (docs : List NodeData)
    (fromId t : String) :
    ∀ (ds : List NodeData), (∀ x ∈ ds, x.id ≠ fromId) →
    countOcc (fromId, t, "sequential")
      (ds.flatMap (fun d2 =>
        (((get_forward_nodes g d2.id 30 5 50).getD []).filter
          (fun x => docs.any (fun y => y.id == x))).map
        (fun x => (d2.id, x, "sequential")))) = 0 := by
  intro ds
  induction ds with
  | nil => intro _; rfl
  | cons x rest ih =>
    intro hne
    rw [List.flatMap_cons, countOcc_append]
    rw [count_block_ne g docs x fromId t (hne x (List.mem_cons_self _ _)),
      ih (fun y hy => hne y (List.mem_cons_of_mem _ hy))]

/-- With pairwise-distinct document ids, every (document,
in-chunk-forward-reachable target) pair contributes exactly one triple. -/
theorem count_flatMap_one (g : TemporalGraph) (docs : List NodeData)
    (d : NodeData) (t : String)
    (ht : t ∈ ((get_forward_nodes g d.id 30 5 50).getD []).filter
      (fun x => docs.any (fun y => y.id == x))) :
    ∀ (ds : List NodeData), ((ds.map NodeData.id).Nodup) → d ∈ ds →
    countOcc (d.id, t, "sequential")
      (ds.flatMap (fun d2 =>
        (((get_forward_nodes g d2.id 30 5 50).getD []).filter
          (fun x => docs.any (fun y => y.id == x))).map
        (fun x => (d2.id, x, "sequential")))) = 1 := by
  intro ds
  induction ds with
  | nil => intro _ hd; exact absurd hd (List.not_mem_nil _)
  | cons x rest ih =>
    intro hnd hd
    rw [List.map_cons, List.nodup_cons] at hnd
    obtain ⟨hx, hrest⟩ := hnd
    rw [List.flatMap_cons, countOcc_append]
    rcases List.mem_cons.mp hd with rfl | hd2
    · have hzero := count_flatMap_ne g docs d.id t rest
        (fun y hy hcy => hx (hcy ▸ List.mem_map_of_mem NodeData.id hy))
      rw [hzero]
      have hfwdnd : (((get_forward_nodes g d.id 30 5 50).getD []).filter
          (fun x => docs.any (fun y => y.id == x))).Nodup := by
        obtain ⟨fwd, hfwd⟩ := Option.isSome_iff_exists.mp
          (get_forward_nodes_isSome g d.id 30 5 50)
        rw [hfwd]
        exact (get_forward_nodes_nodup g d.id 30 5 50 fwd hfwd).filter _
      rw [countOcc_map_triple d.id t _, countOcc_eq_one t _ hfwdnd ht]
    · have hxne : x.id ≠ d.id := by
        intro hc
        exact hx (hc ▸ List.mem_map_of_mem NodeData.id hd2)
      rw [count_block_ne g docs x d.id t hxne, ih hrest hd2]

/-- C1: on the five-document chain, `get_forward_nodes("claim", 60)` returns
exactly `[response, settlement]` ascending and
`get_backward_nodes("settlement", 90)` exactly
`[response, claim, amendment, contract]` descending; and in general both
operations return every node the windowed BFS can reach within the hop
budget whose timestamp falls in the query window (whenever the candidate
count fits in `max_results`), not only direct neighbours. -/
theorem claim_C1 :
    (get_forward_nodes chainGraph "claim" 60 =
      some ["response", "settlement"]) ∧
    (get_backward_nodes chainGraph "settlement" 90 =
      some ["response", "claim", "amendment", "contract"]) ∧
    (∀ (g : TemporalGraph) (id v : String) (w : Int) (mh mr : Nat)
      (src vn : TemporalNode) (n : Nat) (res : List String),
      lookupNode g id = some src →
      lookupNode g v = some vn →
      ReachesWithin (forwardAdj g) (forwardExpandOk g (src.timestamp + w))
        id v n →
      n ≤ mh → v ≠ id →
      src.timestamp < vn.timestamp →
      vn.timestamp ≤ src.timestamp + w →
      ((forwardCandidates g id w mh).getD []).length ≤ mr →
      get_forward_nodes g id w mh mr = some res →
      v ∈ res) ∧
    (∀ (g : TemporalGraph) (id v : String) (w : Int) (mh mr : Nat)
      (tgt vn : TemporalNode) (n : Nat) (res : List String),
      lookupNode g id = some tgt →
      lookupNode g v = some vn →
      ReachesWithin (backwardAdj g) (backwardExpandOk g (tgt.timestamp - w))
        id v n →
      n ≤ mh → v ≠ id →
      tgt.timestamp - w ≤ vn.timestamp →
      vn.timestamp < tgt.timestamp →
      ((backwardCandidates g id w mh).getD []).length ≤ mr →
      get_backward_nodes g id w mh mr = some res →
      v ∈ res) := by
  refine ⟨by decide, by decide, ?_, ?_⟩
  · intro g id v w mh mr src vn n res hsrc hv hreach hn hne hlow hhigh hcap
      hres
    exact get_forward_nodes_complete g id v w mh mr src vn n res hsrc hv
      hreach hn hne hlow hhigh hcap hres
  · intro g id v w mh mr tgt vn n res htgt hv hreach hn hne hlow hhigh hcap
      hres
    exact get_backward_nodes_complete g id v w mh mr tgt vn n res htgt hv
      hreach hn hne hlow hhigh hcap hres

/-- Witness for C1: the general forward-completeness conjunct applied on the
chain itself, reaching `settlement` from `claim` in two hops. -/
theorem claim_C1_witness :
    "settlement" ∈ (["response", "settlement"] : List String) := by
  refine claim_C1.2.2.1 chainGraph "claim" "settlement" 60 5 50
    { id := "claim", timestamp := 50 }
    { id := "settlement", timestamp := 80 } 2
    ["response", "settlement"] (by decide) (by decide) ?_ (by decide)
    (by decide) (by decide) (by decide) (by decide) (by decide)
  exact ReachesWithin.step (u := "response")
    (ReachesWithin.step (u := "claim") ReachesWithin.refl (by decide)
      (by decide)) (by decide) (by decide)

/-- C3: a reachable node whose timestamp is exactly
`source.timestamp + time_window_days` is returned by `get_forward_nodes`,
one strictly beyond the bound never is; and at the BFS level a node at the
boundary is still expanded (its successors are enqueued) while a node beyond
the boundary is visited but not expanded. -/
theorem claim_C3 :
    (∀ (g : TemporalGraph) (id v : String) (w : Int) (mh mr : Nat)
      (src vn : TemporalNode) (n : Nat) (res : List String),
      lookupNode g id = some src →
      lookupNode g v = some vn →
      ReachesWithin (forwardAdj g) (forwardExpandOk g (src.timestamp + w))
        id v n →
      n ≤ mh → v ≠ id → 0 < w →
      vn.timestamp = src.timestamp + w →
      ((forwardCandidates g id w mh).getD []).length ≤ mr →
      get_forward_nodes g id w mh mr = some res →
      v ∈ res) ∧
    (∀ (g : TemporalGraph) (id v : String) (w : Int) (mh mr : Nat)
      (src vn : TemporalNode) (res : List String),
      lookupNode g id = some src →
      lookupNode g v = some vn →
      src.timestamp + w < vn.timestamp →
      get_forward_nodes g id w mh mr = some res →
      v ∉ res) ∧
    (∀ (g : TemporalGraph) (endTime : Int) (mh fuel : Nat) (c : String)
      (h : Nat) (rest : List (String × Nat)) (visited : List String)
      (cn : TemporalNode),
      visited.contains c = false → ¬ mh < h →
      lookupNode g c = some cn → cn.timestamp ≤ endTime →
      bfsAux (forwardAdj g) (forwardExpandOk g endTime) mh (fuel + 1)
        ((c, h) :: rest) visited =
      bfsAux (forwardAdj g) (forwardExpandOk g endTime) mh fuel
        (rest ++ ((forwardAdj g c).filter
          (fun x => !(visited ++ [c]).contains x)).map (fun x => (x, h + 1)))
        (visited ++ [c])) ∧
    (∀ (g : TemporalGraph) (endTime : Int) (mh fuel : Nat) (c : String)
      (h : Nat) (rest : List (String × Nat)) (visited : List String)
      (cn : TemporalNode),
      visited.contains c = false → ¬ mh < h →
      lookupNode g c = some cn → endTime < cn.timestamp →
      bfsAux (forwardAdj g) (forwardExpandOk g endTime) mh (fuel + 1)
        ((c, h) :: rest) visited =
      bfsAux (forwardAdj g) (forwardExpandOk g endTime) mh fuel rest
        (visited ++ [c])) := by
  refine ⟨?_, ?_, ?_, ?_⟩
  · intro g id v w mh mr src vn n res hsrc hv hreach hn hne hw hb hcap hres
    exact get_forward_nodes_complete g id v w mh mr src vn n res hsrc hv
      hreach hn hne (by omega) (le_of_eq hb) hcap hres
  · intro g id v w mh mr src vn res hsrc hv hbeyond hres hvmem
    obtain ⟨_, vn2, hv2, _, hup⟩ :=
      get_forward_nodes_sound g id v w mh mr src res hsrc hres hvmem
    rw [hv] at hv2
    cases hv2
    omega
  · intro g endTime mh fuel c h rest visited cn hcv hh hc hts
    exact bfsAux_step_expand _ _ mh fuel c h rest visited hcv hh
      (by rw [forwardExpandOk_eq g endTime c cn hc]; exact decide_eq_true hts)
  · intro g endTime mh fuel c h rest visited cn hcv hh hc hts
    exact bfsAux_step_noexpand _ _ mh fuel c h rest visited hcv hh
      (by rw [forwardExpandOk_eq g endTime c cn hc]
          exact decide_eq_false (by omega))

/-- Witness for C3: on `boundaryGraph` with a 5-day window, the boundary
node `b` (day 5) is returned and the beyond-boundary node `c` (day 6) is
not. -/
theorem claim_C3_witness :
    "b" ∈ (["b"] : List String) ∧ "c" ∉ (["b"] : List String) := by
  constructor
  · refine claim_C3.1 boundaryGraph "a" "b" 5 5 50
      { id := "a", timestamp := 0 } { id := "b", timestamp := 5 } 1 ["b"]
      (by decide) (by decide) ?_ (by decide) (by decide) (by decide)
      (by decide) (by decide) (by decide)
    exact ReachesWithin.step (u := "a") ReachesWithin.refl (by decide)
      (by decide)
  · exact claim_C3.2.1 boundaryGraph "a" "c" 5 5 50
      { id := "a", timestamp := 0 } { id := "c", timestamp := 6 } ["b"]
      (by decide) (by decide) (by decide) (by decide)

/-- C4: every traversal terminates on every finite graph, cycles included:
with fuel `|edges| + 2` (one loop iteration per initial entry plus one per
edge out of a freshly visited node — each node is marked visited at most
once) all four fuelled loops finish, and the visited set never holds a
node twice. -/
theorem claim_C4 :
    ∀ (g : TemporalGraph) (a b : String) (w endTime : Int) (mh mr mh2 : Nat),
      (get_forward_nodes g a w mh mr).isSome ∧
      (get_backward_nodes g a w mh mr).isSome ∧
      (has_path g a b mh2).isSome ∧
      (get_shortest_path g a b mh2).isSome ∧
      ((bfsForward g a mh endTime).getD []).Nodup ∧
      ((bfsBackward g a mh endTime).getD []).Nodup := by
  intro g a b w endTime mh mr mh2
  refine ⟨get_forward_nodes_isSome g a w mh mr,
    get_backward_nodes_isSome g a w mh mr,
    has_path_isSome g a b mh2,
    get_shortest_path_isSome g a b mh2, ?_, ?_⟩
  · obtain ⟨vs, hvs⟩ := Option.isSome_iff_exists.mp
      (bfsForward_isSome g a mh endTime)
    rw [hvs]
    exact bfsAux_nodup _ _ mh (graphFuel g) [(a, 0)] [] vs List.nodup_nil hvs
  · obtain ⟨vs, hvs⟩ := Option.isSome_iff_exists.mp
      (bfsBackward_isSome g a mh endTime)
    rw [hvs]
    exact bfsAux_nodup _ _ mh (graphFuel g) [(a, 0)] [] vs List.nodup_nil hvs

/-- C7: `add_edge` returns false and leaves the adjacency untouched when an
endpoint is missing; with both endpoints present it returns true and appends
the edge to the forward and reverse adjacency, even for a sequential or
causal edge whose source timestamp lies strictly after its target (the
temporal-order violation only warns). -/
theorem claim_C7 :
    ∀ (g : TemporalGraph) (e : TemporalEdge),
      ((lookupNode g e.fromNode = none ∨ lookupNode g e.toNode = none) →
        add_edge g e = (false, g)) ∧
      (∀ (fn tn : TemporalNode),
        lookupNode g e.fromNode = some fn →
        lookupNode g e.toNode = some tn →
        add_edge g e = (true, { g with edgeList := g.edgeList ++ [e] }) ∧
        edgesFrom (add_edge g e).2 e.fromNode =
          edgesFrom g e.fromNode ++ [e] ∧
        edgesTo (add_edge g e).2 e.toNode = edgesTo g e.toNode ++ [e] ∧
        ((e.relation = TemporalRelation.sequential ∨
          e.relation = TemporalRelation.causal) →
          tn.timestamp < fn.timestamp →
          (add_edge g e).1 = true)) := by
  intro g e
  constructor
  · intro hmiss
    unfold add_edge
    rcases hmiss with hmiss | hmiss
    · rw [hmiss]
    · rw [hmiss]
      cases lookupNode g e.fromNode with
      | none => rfl
      | some _ => rfl
  · intro fn tn hfn htn
    have hedge : add_edge g e =
        (true, { g with edgeList := g.edgeList ++ [e] }) := by
      unfold add_edge
      rw [hfn, htn]
    refine ⟨hedge, ?_, ?_, fun _ _ => by rw [hedge]⟩
    · rw [hedge]
      unfold edgesFrom
      simp [List.filter_append]
    · rw [hedge]
      unfold edgesTo
      simp [List.filter_append]

/-- Witness for C7: a causal edge that runs backward in time between two
existing nodes is still inserted with a `true` result. -/
theorem claim_C7_witness :
    (add_edge warnGraph warnEdge).1 = true ∧
    edgesFrom (add_edge warnGraph warnEdge).2 "x" = [warnEdge] := by
  have h := (claim_C7 warnGraph warnEdge).2 { id := "x", timestamp := 10 }
    { id := "y", timestamp := 0 } (by decide) (by decide)
  refine ⟨by rw [h.1], ?_⟩
  have hx : warnEdge.fromNode = "x" := rfl
  rw [← hx, h.2.1]
  decide

/-- C8: every query on an id absent from the node map yields the empty or
negative result and never an error: empty lists for the reachability
queries, `False` for `has_path`, no path for `get_shortest_path`. -/
theorem claim_C8 :
    ∀ (g : TemporalGraph) (id a : String) (w : Int) (mh mr mh2 : Nat),
      lookupNode g id = none →
      get_forward_nodes g id w mh mr = some [] ∧
      get_backward_nodes g id w mh mr = some [] ∧
      has_path g id a mh2 = some false ∧
      has_path g a id mh2 = some false ∧
      get_shortest_path g id a mh2 = some none ∧
      get_shortest_path g a id mh2 = some none := by
  intro g id a w mh mr mh2 h
  refine ⟨?_, ?_, ?_, ?_, ?_, ?_⟩
  · unfold get_forward_nodes forwardCandidates
    rw [h]
    simp [stableSort]
  · unfold get_backward_nodes backwardCandidates
    rw [h]
    simp [stableSort]
  · unfold has_path
    rw [if_pos (by simp [h])]
  · unfold has_path
    rw [if_pos (by simp [h])]
  · unfold get_shortest_path
    rw [if_pos (by simp [h])]
  · unfold get_shortest_path
    rw [if_pos (by simp [h])]

/-- Witness for C8: querying the empty graph with id `z`. -/
theorem claim_C8_witness :
    get_forward_nodes {} "z" 30 5 50 = some [] ∧
    has_path {} "z" "z" 10 = some false := by
  have h := claim_C8 {} "z" "z" 30 5 50 10 (by decide)
  exact ⟨h.1, h.2.2.1⟩

/-- C10: re-adding an id that is already present returns true, silently
replaces the node-map entry in place, and appends a second
`(timestamp, id)` pair to the sorted index without removing the old one, so
a time-range query covering both timestamps returns the id twice. -/
theorem claim_C10 :
    (∀ (g : TemporalGraph) (n : TemporalNode),
      g.nodes.any (fun p => p.1 == n.id) = true →
      (add_node g n).1 = true ∧
      lookupNode (add_node g n).2 n.id = some n ∧
      (add_node g n).2.nodes.length = g.nodes.length ∧
      (add_node g n).2.timestampIndex.length =
        g.timestampIndex.length + 1) ∧
    ((add_node (add_node {} { id := "a", timestamp := 0 }).2
        { id := "a", timestamp := 5 }).1 = true ∧
      get_nodes_in_timerange
        (add_node (add_node {} { id := "a", timestamp := 0 }).2
          { id := "a", timestamp := 5 }).2 0 5 = ["a", "a"]) := by
  constructor
  · intro g n hmem
    refine ⟨rfl, ?_, ?_, ?_⟩
    · show dictFind? (dictInsert g.nodes n.id n) n.id = some n
      rw [dictFind?_dictInsert]
      simp
    · exact length_dictInsert_mem g.nodes n.id n hmem
    · exact length_insortR (n.timestamp, n.id) g.timestampIndex
  · exact ⟨rfl, by decide⟩

/-- Witness for C10: the general conjunct applied to the duplicate insert of
`a`. -/
theorem claim_C10_witness :
    lookupNode (add_node (add_node {} { id := "a", timestamp := 0 }).2
        { id := "a", timestamp := 5 }).2 "a" =
      some { id := "a", timestamp := 5 } ∧
    (add_node (add_node {} { id := "a", timestamp := 0 }).2
        { id := "a", timestamp := 5 }).2.timestampIndex.length = 2 := by
  have h := claim_C10.1 (add_node {} { id := "a", timestamp := 0 }).2
    { id := "a", timestamp := 5 } (by decide)
  refine ⟨by simpa using h.2.1, ?_⟩
  rw [h.2.2.2]
  decide

/-- C2: along every run of the analysis loop, whatever the chunk results,
each produced carryover respects every configured cap —
`critical_events ≤ max_carryover_events`,
`key_entities ≤ max_carryover_entities`,
`causal_chains ≤ max_carryover_chains`,
`attention_scores ≤ 10 + max_carryover_events` — `open_questions` stays the
initial empty list, and `get_size` is bounded by a constant independent of
the number of chunks and documents. -/
theorem claim_C2 :
    ∀ (cfg : MarkovianConfig) (startTime : Int) (chunks : List ChunkResult),
      0 < cfg.maxCarryoverChains →
      ∀ s ∈ carryStates cfg (initialCarryover startTime) 0 chunks,
        s.criticalEvents.length ≤ cfg.maxCarryoverEvents ∧
        s.keyEntities.length ≤ cfg.maxCarryoverEntities ∧
        s.causalChains.length ≤ cfg.maxCarryoverChains ∧
        s.attentionScores.length ≤ 10 + cfg.maxCarryoverEvents ∧
        s.openQuestions = [] ∧
        s.get_size ≤ cfg.maxCarryoverEvents + cfg.maxCarryoverEntities +
          cfg.maxCarryoverChains + (10 + cfg.maxCarryoverEvents) := by
  intro cfg startTime chunks hch s hs
  obtain ⟨h1, h2, h3, h4, h5⟩ :=
    carryStates_bounds cfg hch chunks (initialCarryover startTime) 0 s hs
  have hoq : s.openQuestions = [] := h5
  refine ⟨h1, h2, h3, h4, hoq, ?_⟩
  unfold TemporalCarryover.get_size
  rw [hoq]
  simp only [List.length_nil]
  omega

/-- Witness for C2: one loop iteration on an empty chunk with the default
configuration. -/
theorem claim_C2_witness :
    ((carryStates {} (initialCarryover 0) 0 [{}]).headD
      (initialCarryover 0)).get_size ≤ 10 + 15 + 20 + (10 + 10) := by
  have hmem : ((carryStates {} (initialCarryover 0) 0 [{}]).headD
      (initialCarryover 0)) ∈ carryStates {} (initialCarryover 0) 0 [{}] := by
    rw [carryStates]
    exact List.mem_cons_self _ _
  exact (claim_C2 {} 0 [{}] (by decide) _ hmem).2.2.2.2.2

/-- Counterexample to C5: with the default heads,
`compute_forward_attention` queries `get_forward_nodes` with the maximum
window over ALL heads, which is 90 (set by the backward head), not 30; the
widest window among the heads its aggregation step treats as
forward-relevant is 14, not 30 either; and on `attnGraph` the candidate set
it obtains differs from the one the claimed 30-day query would yield. -/
theorem claim_C5_counterexample :
    maxWindow defaultHeads = 90 ∧
    ¬ maxWindow defaultHeads = 30 ∧
    specForwardRelevantWindow defaultHeads = 14 ∧
    computeForwardCandidates attnGraph defaultHeads "fa" 10 = some ["fb"] ∧
    get_forward_nodes attnGraph "fa" 30 5 20 = some [] ∧
    ¬ computeForwardCandidates attnGraph defaultHeads "fa" 10 =
        get_forward_nodes attnGraph "fa" 30 5 20 := by
  decide

/-- C5 (amended): `compute_forward_attention` obtains its candidates by
calling `get_forward_nodes` with `time_window_days` equal to the widest
`temporal_window_days` among ALL attention heads — a bound every head's
window satisfies, equal to 90 for the default heads — so a node 60 days
out, beyond every forward-relevant head's window, is still a candidate. -/
theorem claim_C5 :
    (∀ (heads : List AttentionHead) (h : AttentionHead), h ∈ heads →
      h.temporalWindowDays ≤ maxWindow heads) ∧
    (∀ (g : TemporalGraph) (id : String) (m : Nat),
      computeForwardCandidates g defaultHeads id m =
        get_forward_nodes g id 90 5 (m * 2)) ∧
    computeForwardCandidates attnGraph defaultHeads "fa" 10 =
      some ["fb"] := by
  have hinit : ∀ (l : List AttentionHead) (a : Int),
      a ≤ l.foldl (fun m x => max m x.temporalWindowDays) a := by
    intro l
    induction l with
    | nil => intro a; exact le_refl a
    | cons x xs ih =>
      intro a
      exact le_trans (le_max_left a x.temporalWindowDays) (ih _)
  have hmem : ∀ (l : List AttentionHead) (a : Int) (h : AttentionHead),
      h ∈ l → h.temporalWindowDays ≤
        l.foldl (fun m x => max m x.temporalWindowDays) a := by
    intro l
    induction l with
    | nil => intro a h hm; exact absurd hm (List.not_mem_nil _)
    | cons x xs ih =>
      intro a h hm
      rcases List.mem_cons.mp hm with rfl | hm2
      · exact le_trans (le_max_right a h.temporalWindowDays) (hinit xs _)
      · exact ih _ h hm2
  refine ⟨?_, ?_, by decide⟩
  · intro heads h hm
    cases heads with
    | nil => exact absurd hm (List.not_mem_nil _)
    | cons h0 t =>
      rcases List.mem_cons.mp hm with rfl | hm2
      · exact hinit t h.temporalWindowDays
      · exact hmem t h0.temporalWindowDays h hm2
  · intro g id m
    show get_forward_nodes g id (maxWindow defaultHeads) 5 (m * 2) =
      get_forward_nodes g id 90 5 (m * 2)
    rw [show maxWindow defaultHeads = 90 from by decide]

/-- Witness for C5: the long-backward head's 90-day window bounds (and
attains) the query window of the default configuration. -/
theorem claim_C5_witness :
    longBackwardHead.temporalWindowDays ≤ maxWindow defaultHeads := by
  have hmem : longBackwardHead ∈ defaultHeads := by
    unfold defaultHeads longBackwardHead
    exact List.mem_cons_of_mem _ (List.mem_cons_self _ _)
  exact claim_C5.1 defaultHeads longBackwardHead hmem

/-- Counterexample to C6: the only edge of `causalGraph` states relation
`causal`, yet the emitted triple says `"sequential"` — the edge-metadata
lookup in `_identify_causal_relationships` keys a `(from, to)` tuple into a
dict keyed by single id strings, so it never finds the edge. -/
theorem claim_C6_counterexample :
    causalGraph.edgeList =
      [{ fromNode := "ca", toNode := "cb",
         relation := TemporalRelation.causal }] ∧
    identifyCausalRelationships causalGraph causalDocs =
      some [("ca", "cb", "sequential")] ∧
    ¬ identifyCausalRelationships causalGraph causalDocs =
        some [("ca", "cb", "causal")] := by
  refine ⟨by decide, ?_, ?_⟩
  · rw [identifyCausalRelationships_eq]
    decide
  · rw [identifyCausalRelationships_eq]
    decide

/-- C6 (amended): for each in-chunk document and each of its
forward-reachable ids that is also in the chunk,
`_identify_causal_relationships` emits exactly one `(from, to, type)`
triple — in document order — and the relation type is always
`"sequential"`, regardless of what the connecting edge states. -/
theorem claim_C6 :
    ∀ (g : TemporalGraph) (docs : List NodeData),
      identifyCausalRelationships g docs = some (docs.flatMap (fun d =>
        (((get_forward_nodes g d.id 30 5 50).getD []).filter
          (fun t => docs.any (fun x => x.id == t))).map
          (fun t => (d.id, t, "sequential")))) ∧
      (∀ out, identifyCausalRelationships g docs = some out →
        ∀ tr ∈ out, tr.2.2 = "sequential") ∧
      (∀ out (d : NodeData) (t : String),
        identifyCausalRelationships g docs = some out →
        (docs.map NodeData.id).Nodup → d ∈ docs →
        t ∈ ((get_forward_nodes g d.id 30 5 50).getD []).filter
          (fun x => docs.any (fun y => y.id == x)) →
        countOcc (d.id, t, "sequential") out = 1) := by
  intro g docs
  refine ⟨identifyCausalRelationships_eq g docs, ?_, ?_⟩
  · intro out hout tr htr
    rw [identifyCausalRelationships_eq] at hout
    cases hout
    obtain ⟨d, _, hd2⟩ := List.mem_flatMap.mp htr
    obtain ⟨t, _, rfl⟩ := List.mem_map.mp hd2
    rfl
  · intro out d t hout hnd hd ht
    rw [identifyCausalRelationships_eq] at hout
    cases hout
    exact count_flatMap_one g docs d t ht docs hnd hd

/-- Witness for C6: on `causalGraph`, the pair `(ca, cb)` yields exactly one
triple. -/
theorem claim_C6_witness :
    countOcc ("ca", "cb", "sequential") [("ca", "cb", "sequential")] = 1 := by
  have h := (claim_C6 causalGraph causalDocs).2.2
    [("ca", "cb", "sequential")] { id := "ca", timestamp := 0 } "cb"
  refine h ?_ (by decide) (by decide) ?_
  · rw [identifyCausalRelationships_eq]
    decide
  · decide

/-- C9: `cosine_similarity` returns exactly 0 when either vector is empty or
either Euclidean norm is 0; every TF-IDF vector built on a corpus reached by
any sequence of `add_document` calls has nonnegative entries (document
frequency never exceeds the document count, so IDF is nonnegative); and the
cosine similarity of two such vectors always lies in `[0, 1]`. -/
theorem claim_C9 :
    (∀ v : List (String × ℝ),
      cosine_similarity [] v = 0 ∧ cosine_similarity v [] = 0) ∧
    (∀ v1 v2 : List (String × ℝ),
      Real.sqrt (sumSq v1) = 0 ∨ Real.sqrt (sumSq v2) = 0 →
      cosine_similarity v1 v2 = 0) ∧
    (∀ (texts : List String) (text : String),
      ∀ p ∈ compute_tfidf_vector (semStateOf texts) text, 0 ≤ p.2) ∧
    (∀ (texts1 texts2 : List String) (t1 t2 : String),
      0 ≤ cosine_similarity (compute_tfidf_vector (semStateOf texts1) t1)
        (compute_tfidf_vector (semStateOf texts2) t2) ∧
      cosine_similarity (compute_tfidf_vector (semStateOf texts1) t1)
        (compute_tfidf_vector (semStateOf texts2) t2) ≤ 1) := by
  refine ⟨?_, ?_, ?_, ?_⟩
  · intro v
    constructor
    · rfl
    · cases v with
      | nil => rfl
      | cons p t => rfl
  · intro v1 v2 hmag
    match v1, v2 with
    | [], _ => rfl
    | _ :: _, [] => rfl
    | p :: t, q :: s =>
      rw [cosine_similarity, if_pos hmag]
  · intro texts text
    exact compute_tfidf_vector_nonneg texts text
  · intro texts1 texts2 t1 t2
    exact cosine_similarity_unit _ _
      (compute_tfidf_vector_nonneg texts1 t1)
      (compute_tfidf_vector_nonneg texts2 t2)
      (compute_tfidf_vector_keys_nodup (semStateOf texts1) t1)

/-- Witness for C9: the zero-norm branch at a concrete one-entry vector. -/
theorem claim_C9_witness :
    cosine_similarity [("term", (0 : ℝ))] [("term", (1 : ℝ))] = 0 := by
  refine claim_C9.2.1 [("term", (0 : ℝ))] [("term", (1 : ℝ))] (Or.inl ?_)
  have hz : sumSq [("term", (0 : ℝ))] = 0 := by
    unfold sumSq
    simp
  rw [hz, Real.sqrt_zero]

end Totg

